import Mathlib

/-!
# Verification of the shape-detector pipeline (`src/main.ts`)

This file is a shallow embedding of the `ShapeDetector` class of `src/main.ts`
into Lean.  JavaScript `number` arithmetic is idealised as exact rational
arithmetic (`ℚ`); `Math.sqrt` is threaded through every definition that uses it
as an explicit parameter `sq : ℚ → ℚ`, and a concrete rational approximation
`ratSqrt` instantiates it for concrete evaluations.  `Math.atan2` occurs in the
source only inside the convex-hull sort comparator, where only *comparisons* of
its values matter; the comparator is embedded by an exact comparison of the
mathematical angles (see `angleLt`).  A `Uint8ClampedArray` read that is out of
range yields `undefined` in JavaScript, and any arithmetic on it yields `NaN`;
a `NaN` luminance is modelled by `Option.none`, with the JavaScript rule that
every `<` comparison against `NaN` is false.
-/

set_option maxRecDepth 8000

namespace ShapeDet

/-- Model of the source's `Point` interface; JS numbers as exact rationals. -/
structure Pt where
  x : ℚ
  y : ℚ
deriving DecidableEq, Repr

/-- Default point used for `points[i]` reads; all reads in the pipeline are in range. -/
def ptD : Pt := ⟨0, 0⟩

/-- The `type` field of `DetectedShape`.  The TS union type includes `"square"`
even though the classifier never produces it. -/
inductive ShapeType where
  | circle
  | triangle
  | rectangle
  | square
  | pentagon
  | star
deriving DecidableEq, Repr

/-- Model of the `boundingBox` record `{x, y, width, height}`. -/
structure BBox where
  x : ℚ
  y : ℚ
  width : ℚ
  height : ℚ
deriving DecidableEq, Repr

/-- Model of the `DetectedShape` interface. -/
structure DetectedShape where
  type : ShapeType
  confidence : ℚ
  boundingBox : BBox
  center : Pt
  area : ℚ
deriving DecidableEq, Repr

/-- Model of the `DetectionResult` interface. -/
structure DetectionResult where
  shapes : List DetectedShape
  processingTime : ℚ
  imageWidth : ℕ
  imageHeight : ℕ
deriving DecidableEq, Repr

/-- JavaScript `Math.round`: round half toward positive infinity. -/
def jsRound (q : ℚ) : ℤ := ⌊q + 1/2⌋

/-- The exact value of the double-precision constant `Math.PI`. -/
def jsPi : ℚ := 884279719003555 / 281474976710656

/-- Bisection step for the integer square root: `lo² ≤ n < hi²` is invariant,
and 128 steps suffice for every `n < 2^127`. -/
def isqrtGo (n : ℕ) : ℕ → ℕ → ℕ → ℕ
  | 0, lo, _ => lo
  | f+1, lo, hi =>
    if lo + 1 < hi then
      let mid := (lo + hi) / 2
      if mid * mid ≤ n then isqrtGo n f mid hi else isqrtGo n f lo mid
    else lo

/-- Integer square root by bisection (agrees with `Nat.sqrt` for `n < 2^127`,
which covers every concrete evaluation in this file). -/
def isqrt (n : ℕ) : ℕ := isqrtGo n 128 0 (n + 1)

/-- A concrete computable stand-in for `Math.sqrt` on rationals, used to
instantiate the `sq` parameter in concrete evaluations: a four-decimal-digit
under-approximation of the exact square root (exact on perfect squares of
integers).  Negative inputs map to `0`. -/
def ratSqrt (q : ℚ) : ℚ :=
  (isqrt (q.num.toNat * q.den * 100000000) : ℚ) / ((q.den : ℚ) * 10000)

/-- JavaScript `<` on a possibly-`NaN` left operand (`none` models `NaN`):
any comparison with `NaN` is false. -/
def jsLtOpt (g : Option ℚ) (t : ℚ) : Bool :=
  match g with
  | some v => decide (v < t)
  | none => false

/-! ## `toGrayscale` (source lines 127–134)

`gray[i] = 0.299*data[4i] + 0.587*data[4i+1] + 0.114*data[4i+2]`.  If any of
the three reads is out of range the JS result is `NaN`, modelled as `none`.
(The `Float32Array` rounding of the stored luminance is idealised away.) -/

def toGrayscale (data : List ℕ) (width height : ℕ) : List (Option ℚ) :=
  (List.range (width * height)).map fun i =>
    match data.get? (4*i), data.get? (4*i+1), data.get? (4*i+2) with
    | some r, some g, some b =>
        some (0.299 * (r : ℚ) + 0.587 * (g : ℚ) + 0.114 * (b : ℚ))
    | _, _, _ => none

/-! ## `otsuThreshold` (source lines 336–379)

If any luminance is `NaN` then `maxVal` becomes `NaN` after the histogram
pass, all three `i <= maxVal` loops are skipped (every comparison with `NaN`
is false) and the initial `bestThreshold = 0` is returned; the embedding
short-circuits that case.  Otherwise the computation is pure arithmetic.
An empty input makes `total = 0`; JS divides by zero producing `NaN` bins and
every `variance > maxVariance` test fails, returning 0 — the rational model
(division by zero yields 0) returns 0 on that input as well. -/

def otsuThreshold (gray : List (Option ℚ)) : ℚ :=
  if gray.any Option.isNone then 0
  else
    let vals := gray.map fun g => (min 255 (max 0 (jsRound (g.getD 0)))).toNat
    let maxVal := vals.foldl max 0
    let total : ℚ := (gray.length : ℚ)
    let hist : ℕ → ℚ := fun v => ((vals.count v : ℕ) : ℚ) / total
    let variance : ℕ → ℚ := fun t =>
      let w0 := ((List.range (t+1)).map hist).sum
      let mu0s := ((List.range (t+1)).map fun (i : ℕ) => (i : ℚ) * hist i).sum
      let mu0 := if w0 > 0 then mu0s / w0 else mu0s
      let w1 := ((List.range' (t+1) (maxVal - t)).map hist).sum
      let mu1s := ((List.range' (t+1) (maxVal - t)).map fun (i : ℕ) => (i : ℚ) * hist i).sum
      let mu1 := if w1 > 0 then mu1s / w1 else mu1s
      w0 * w1 * (mu0 - mu1) * (mu0 - mu1)
    ((List.range (maxVal+1)).foldl
      (fun best t => if variance t > best.1 then (variance t, (t : ℚ)) else best)
      ((0 : ℚ), (0 : ℚ))).2

/-! ## Binarisation stage of `detectShapes` (source lines 45–56) -/

/-- `otsuForeground`: the number of pixels with luminance strictly below `t`
(`NaN` luminances never count). -/
def otsuForegroundCount (gray : List (Option ℚ)) (t : ℚ) : ℕ :=
  gray.countP fun g => jsLtOpt g t

/-- `otsuRatio` of source line 50.  When `width*height = 0`, JS produces `NaN`
and both range tests fail; the rational model yields `0`, failing them too. -/
def otsuRa (gray : List (Option ℚ)) (width height : ℕ) : ℚ :=
  (otsuForegroundCount gray (otsuThreshold gray) : ℚ) / ((width * height : ℕ) : ℚ)

/-- The threshold chosen on source line 51. -/
def chosenThreshold (gray : List (Option ℚ)) (width height : ℕ) : ℚ :=
  if 0.05 < otsuRa gray width height ∧ otsuRa gray width height < 0.50 then
    otsuThreshold gray
  else 128

/-- The binary mask of source lines 53–56: `255` iff luminance `< threshold`. -/
def binarize (gray : List (Option ℚ)) (t : ℚ) : List ℕ :=
  gray.map fun g => if jsLtOpt g t then 255 else 0

/-! ## Geometric utilities (source lines 396–480 and 513–515) -/

/-- `crossProduct` (source lines 513–515). -/
def crossProduct (o a b : Pt) : ℚ :=
  (a.x - o.x) * (b.y - o.y) - (a.y - o.y) * (b.x - o.x)

/-- `calculateArea` (source lines 398–406): shoelace formula, `|·|/2`. -/
def calculateArea (contour : List Pt) : ℚ :=
  |((List.range contour.length).map fun i =>
      let a := contour.getD i ptD
      let b := contour.getD ((i+1) % contour.length) ptD
      a.x * b.y - b.x * a.y).sum| / 2

/-- `calculatePerimeter` (source lines 230–242): cyclic sum of edge lengths. -/
def calculatePerimeter (sq : ℚ → ℚ) (points : List Pt) : ℚ :=
  ((List.range points.length).map fun i =>
    let a := points.getD i ptD
    let b := points.getD ((i+1) % points.length) ptD
    sq ((b.x - a.x) * (b.x - a.x) + (b.y - a.y) * (b.y - a.y))).sum

/-- `getBoundingBox` (source lines 420–437).  The `±Infinity` initialisation
followed by min/max folding equals folding from the first point; the empty
case (never reached in the pipeline) is given the degenerate box at 0. -/
def getBoundingBox (contour : List Pt) : BBox :=
  match contour with
  | [] => ⟨0, 0, 0, 0⟩
  | p :: rest =>
    let minX := rest.foldl (fun m q => min m q.x) p.x
    let minY := rest.foldl (fun m q => min m q.y) p.y
    let maxX := rest.foldl (fun m q => max m q.x) p.x
    let maxY := rest.foldl (fun m q => max m q.y) p.y
    ⟨minX, minY, maxX - minX, maxY - minY⟩

/-- `calculateCentroid` (source lines 408–418): rounded coordinate means. -/
def calculateCentroid (contour : List Pt) : Pt :=
  ⟨(jsRound ((contour.map Pt.x).sum / (contour.length : ℚ)) : ℚ),
   (jsRound ((contour.map Pt.y).sum / (contour.length : ℚ)) : ℚ)⟩

/-- `perpendicularDistance` (source lines 472–480). -/
def perpendicularDistance (sq : ℚ → ℚ) (point lineStart lineEnd : Pt) : ℚ :=
  let dx := lineEnd.x - lineStart.x
  let dy := lineEnd.y - lineStart.y
  let norm := sq (dx * dx + dy * dy)
  if norm = 0 then
    sq ((point.x - lineStart.x) * (point.x - lineStart.x) +
        (point.y - lineStart.y) * (point.y - lineStart.y))
  else
    |dy * point.x - dx * point.y + lineEnd.x * lineStart.y - lineEnd.y * lineStart.x| / norm

/-! ## `convexHull` (source lines 482–511)

The sort comparator compares `Math.atan2(a.y-s.y, a.x-s.x)` values and, on
ties, squared distances.  Comparisons of exact `atan2` values are computed
exactly: `atan2 y x` lies in `(-π,0)` for `y<0`, equals `0` for `y=0, x≥0`
(including `atan2 0 0 = 0`), lies in `(0,π)` for `y>0` and equals `π` for
`y=0, x<0`; within either open half-plane the order of angles is the sign of
the cross product. -/

/-- Order class of the exact `atan2 y x` value: `0` for angles in `(-π,0)`,
`1` for angle `0`, `2` for angles in `(0,π)`, `3` for angle `π`. -/
def atan2Class (y x : ℚ) : ℕ :=
  if y < 0 then 0
  else if y = 0 ∧ 0 ≤ x then 1
  else if 0 < y then 2
  else 3

/-- Exact comparison `atan2 u.y u.x < atan2 v.y v.x`. -/
def angleLt (u v : Pt) : Bool :=
  let cu := atan2Class u.y u.x
  let cv := atan2Class v.y v.x
  if cu = cv then
    decide ((cu = 0 ∨ cu = 2) ∧ 0 < u.x * v.y - u.y * v.x)
  else decide (cu < cv)

/-- The sort comparator of source lines 492–499 as a `≤` test: strictly
smaller angle first, ties broken by ascending squared distance. -/
def hullLe (s a b : Pt) : Bool :=
  let ua : Pt := ⟨a.x - s.x, a.y - s.y⟩
  let ub : Pt := ⟨b.x - s.x, b.y - s.y⟩
  if angleLt ua ub then true
  else if angleLt ub ua then false
  else decide ((a.x - s.x) * (a.x - s.x) + (a.y - s.y) * (a.y - s.y) ≤
               (b.x - s.x) * (b.x - s.x) + (b.y - s.y) * (b.y - s.y))

/-- One step of the Graham sweep (source lines 503–508), with the stack kept
in reverse (head = top of stack): pop while the last two stack points and the
new point make a non-left turn, then push. -/
def hullSweep (stack : List Pt) (p : Pt) : List Pt :=
  match stack with
  | b :: a :: rest =>
    if crossProduct a b p ≤ 0 then hullSweep (a :: rest) p
    else p :: b :: a :: rest
  | _ => p :: stack

/-- `convexHull` (source lines 482–511): pivot search, polar sort, sweep. -/
def convexHull (points : List Pt) : List Pt :=
  if points.length < 3 then points
  else
    let start := points.foldl
      (fun s p => if p.y < s.y ∨ (p.y = s.y ∧ p.x < s.x) then p else s)
      (points.getD 0 ptD)
    let sorted := points.insertionSort fun a b => hullLe start a b = true
    ((sorted.drop 2).foldl hullSweep [sorted.getD 1 ptD, sorted.getD 0 ptD]).reverse

/-! ## `approximatePolygon` (source lines 439–470)

The inner `rdp` recursion returns `[points[start]]` when the span is short or
the maximal deviation is within tolerance, else recurses on both halves of the
span split at the first point of maximal deviation.  The extra guard
`s < m.2 ∧ m.2 < e` makes the Lean recursion total: it can only fail when
`eps` is negative and the whole span is collinear, in which case the JS
recursion does not terminate (it throws a stack-overflow `RangeError`); on
every other input the guard provably holds (see `rdpStep` bounds lemmas). -/

/-- The max-distance scan of source lines 445–456: returns `(maxDist, maxIndex)`,
initialised to `(0, start)`, first strict maximum winning. -/
def rdpStep (sq : ℚ → ℚ) (points : List Pt) (s e : ℕ) : ℚ × ℕ :=
  (List.range' (s+1) (e - (s+1))).foldl
    (fun md i =>
      let d := perpendicularDistance sq (points.getD i ptD) (points.getD s ptD) (points.getD e ptD)
      if d > md.1 then (d, i) else md)
    (0, s)

def rdpF (sq : ℚ → ℚ) (points : List Pt) (eps : ℚ) : ℕ → ℕ → ℕ → List Pt
  | 0, s, _ => [points.getD s ptD]
  | fuel+1, s, e =>
    if e - s < 2 then [points.getD s ptD]
    else
      if (rdpStep sq points s e).1 > eps then
        rdpF sq points eps fuel s (rdpStep sq points s e).2 ++
          rdpF sq points eps fuel (rdpStep sq points s e).2 e
      else [points.getD s ptD]

/-- The `rdp` recursion of source lines 442–465, with fuel `e - s`.  Whenever
a strict maximum was found (`maxIndex` strictly inside the span, which holds
in particular whenever `eps ≥ 0`, since recursion requires `maxDist > eps`
and any positive `maxDist` comes from an update) both sub-spans are strictly
shorter, so a fuel of `e - s` is never exhausted; fuel can run out only in
the case where the JS recursion itself diverges (`maxIndex = start`, possible
only for `eps < 0`, ending in a stack-overflow `RangeError` in JS). -/
def rdp (sq : ℚ → ℚ) (points : List Pt) (eps : ℚ) (s e : ℕ) : List Pt :=
  rdpF sq points eps (e - s) s e

/-- `approximatePolygon` (source lines 439–470): run `rdp` over the whole
contour, append the final contour point, and fall back to the original
contour when fewer than 3 vertices survive. -/
def approximatePolygon (sq : ℚ → ℚ) (contour : List Pt) (epsilon : ℚ) : List Pt :=
  if contour.length < 3 then contour
  else if 3 ≤ (rdp sq contour epsilon 0 (contour.length - 1) ++
      [contour.getD (contour.length - 1) ptD]).length then
    rdp sq contour epsilon 0 (contour.length - 1) ++
      [contour.getD (contour.length - 1) ptD]
  else contour

/-! ## `classifyShapeAdvanced` (source lines 244–334) -/

/-- The final alternation test of the star block (source lines 315–317). -/
def starVerdict (alternationQuot alternationScore : ℚ) : Option (ShapeType × ℚ) :=
  if alternationQuot > 1.15 ∧ alternationScore > 0.5 then
    some (.star, min 0.90 (0.60 + (alternationQuot - 1) * 0.20 + alternationScore * 0.10))
  else none

/-- The star test of source lines 289–318, reached when the vertex count is in
`[8,12]` and convexity in `[0.30,0.75]`; returns `none` when the alternation
conditions fail, letting control fall through to the relaxed fallbacks. -/
def starCandidate (sq : ℚ → ℚ) (approx : List Pt) : Option (ShapeType × ℚ) :=
  let center := calculateCentroid approx
  let distances := approx.map fun p =>
    sq ((p.x - center.x) * (p.x - center.x) + (p.y - center.y) * (p.y - center.y))
  let n := distances.length
  let alternations := ((List.range n).filter fun i =>
    let prev := distances.getD ((i + n - 1) % n) 0
    let curr := distances.getD i 0
    let next := distances.getD ((i + 1) % n) 0
    (prev < curr ∧ next < curr) ∨ (curr < prev ∧ curr < next)).length
  let alternationScore := (alternations : ℚ) / (n : ℚ)
  let sorted := distances.insertionSort (· ≤ ·)
  let shortDist := sorted.getD (n / 4) 0
  let longDist := sorted.getD (3 * n / 4) 0
  starVerdict (longDist / (if shortDist = 0 then 1 else shortDist)) alternationScore

/-- The decision tree of `classifyShapeAdvanced` (source lines 260–333) over
the derived metrics; `starOutcome` is the outcome of the star block, consulted
only under the vertex-count and convexity side conditions of line 289. -/
def classifyCore (vertices : ℕ) (circularity normalizedAspect convexity extent : ℚ)
    (starOutcome : Option (ShapeType × ℚ)) : Option (ShapeType × ℚ) :=
  if convexity > 0.75 ∧ vertices = 3 then
    some (.triangle, min 0.95 (0.80 + convexity * 0.15))
  else if convexity > 0.75 ∧ vertices = 4 then
    if circularity < 0.65 ∧ extent < 0.60 then
      some (.triangle, min 0.85 (0.70 + convexity * 0.15))
    else
      some (.rectangle, min 0.95 (0.80 + convexity * 0.15))
  else if convexity > 0.75 ∧ vertices = 5 then
    if (circularity > 0.75 ∧ extent > 0.95 ∧ normalizedAspect > 0.95) ∨
        (extent > 0.85 ∧ (circularity > 0.50 ∧ circularity < 0.80)) ∨
        (circularity > 0.50 ∧ circularity < 0.70 ∧ convexity > 0.90 ∧ extent < 0.70) then
      some (.rectangle, min 0.90 (0.75 + convexity * 0.15))
    else
      some (.pentagon, min 0.95 (0.75 + convexity * 0.20))
  else if convexity > 0.75 ∧ vertices = 6 then
    some (.pentagon, min 0.88 (0.70 + convexity * 0.18))
  else if circularity > 0.75 ∧ extent > 0.65 then
    some (.circle, min 0.95 (0.70 + circularity * 0.25))
  else
    match (if 8 ≤ vertices ∧ vertices ≤ 12 ∧ 0.30 ≤ convexity ∧ convexity ≤ 0.75 then
             starOutcome
           else none) with
    | some st => some st
    | none =>
      if circularity > 0.60 ∧ extent > 0.55 then some (.circle, 0.60)
      else if vertices = 3 ∧ convexity > 0.60 then
        some (.triangle, min 0.75 (0.55 + convexity * 0.20))
      else if vertices = 4 ∧ convexity > 0.65 then some (.rectangle, 0.60)
      else if vertices = 5 ∧ convexity > 0.65 then some (.pentagon, 0.60)
      else none

/-- The guarded aspect ratio `bbox.height / bbox.width` of source lines 71
and 252 (`1` when the box has no width). -/
def aspectOf (bbox : BBox) : ℚ :=
  if bbox.width > 0 then bbox.height / bbox.width else 1

/-- `classifyShapeAdvanced` (source lines 244–334).  `null` is `none`.  The
divisions guarded in the source (`aspectRatio`, `convexity`, `extent`) keep
their guards; `circularity`'s unguarded division by `perimeter²` is rational
division (a zero perimeter, impossible for a traced contour, would give `NaN`
in JS and `0` here). -/
def classifyShapeAdvanced (sq : ℚ → ℚ) (approx : List Pt) (area perimeter : ℚ)
    (bbox : BBox) : Option (ShapeType × ℚ) :=
  let vertices := approx.length
  let circularity := (4 * jsPi * area) / (perimeter * perimeter)
  let normalizedAspect := min (aspectOf bbox) (1 / aspectOf bbox)
  let hull := convexHull approx
  let hullArea := calculateArea hull
  let convexity := if hullArea > 0 then area / hullArea else 0
  let bboxArea := bbox.width * bbox.height
  let extent := if bboxArea > 0 then area / bboxArea else 0
  classifyCore vertices circularity normalizedAspect convexity extent
    (starCandidate sq approx)

/-! ## Contour extraction (source lines 136–228) -/

/-- The eight compass directions of source lines 185–194, in source order:
right, top-right, top, top-left, left, bottom-left, bottom, bottom-right. -/
def directions : List (ℤ × ℤ) :=
  [(1,0), (1,-1), (0,-1), (-1,-1), (-1,0), (-1,1), (0,1), (1,1)]

/-- The neighbour scan of source lines 207–221: starting at direction `dir`,
find the first of the 8 directions whose in-bounds neighbour is foreground;
return the neighbour and the next search direction `(checkDir + 6) % 8`. -/
def findNext (binary : List ℕ) (width height : ℕ) (cx cy : ℤ) (dir : ℕ) :
    Option (ℤ × ℤ × ℕ) :=
  (List.range 8).foldl
    (fun acc i =>
      match acc with
      | some r => some r
      | none =>
        let checkDir := (dir + i) % 8
        let d := directions.getD checkDir (0, 0)
        let nx := cx + d.1
        let ny := cy + d.2
        if 0 ≤ nx ∧ nx < (width : ℤ) ∧ 0 ≤ ny ∧ ny < (height : ℤ) ∧
            binary.getD (ny.toNat * width + nx.toNat) 0 = 255 then
          some (nx, ny, (checkDir + 6) % 8)
        else none)
    none

/-- One round of the do-while walk of `borderFollowing` (source lines
202–225): push the current point, mark it visited, then either stop (no
foreground neighbour, or the walk returned to the exact start point) or hand
the neighbour to `next`, the rest of the loop.  Passing a `next` that returns
no further points gives the round at the iteration cap. -/
def bfRound (binary : List ℕ) (width height : ℕ) (startX startY cx cy : ℤ)
    (dir : ℕ) (visited : List Bool)
    (next : ℤ → ℤ → ℕ → List Bool → List Pt × List Bool) :
    List Pt × List Bool :=
  let visited' := visited.set (cy.toNat * width + cx.toNat) true
  match findNext binary width height cx cy dir with
  | none => ([⟨(cx : ℚ), (cy : ℚ)⟩], visited')
  | some (nx, ny, ndir) =>
    if nx = startX ∧ ny = startY then ([⟨(cx : ℚ), (cy : ℚ)⟩], visited')
    else
      let r := next nx ny ndir visited'
      (⟨(cx : ℚ), (cy : ℚ)⟩ :: r.1, r.2)

/-- The do-while walk of `borderFollowing` (source lines 202–225), with the
iteration cap `maxIterations = width*height` carried as fuel: the loop's
continuation condition is `iterations < maxIterations`, i.e. remaining fuel
at least 2 at the time a neighbour is found. -/
def bfLoop (binary : List ℕ) (width height : ℕ) (startX startY : ℤ) :
    ℕ → ℤ → ℤ → ℕ → List Bool → List Pt × List Bool
  | 0, cx, cy, dir, visited =>
    bfRound binary width height startX startY cx cy dir visited fun _ _ _ v => ([], v)
  | 1, cx, cy, dir, visited =>
    bfRound binary width height startX startY cx cy dir visited fun _ _ _ v => ([], v)
  | fuel+2, cx, cy, dir, visited =>
    bfRound binary width height startX startY cx cy dir visited fun nx ny ndir v =>
      bfLoop binary width height startX startY (fuel+1) nx ny ndir v

/-- `borderFollowing` (source lines 176–228): walk from the start pixel with
initial direction 0, returning the contour and the updated visited mask. -/
def borderFollowing (binary : List ℕ) (visited : List Bool) (sx sy : ℤ)
    (width height : ℕ) : List Pt × List Bool :=
  bfLoop binary width height sx sy (width * height) sx sy 0 visited

/-- The edge test of source lines 145–160: some in-bounds 8-neighbour is
background (the source's early-exit double loop computes exactly this). -/
def hasBackgroundNeighbor (binary : List ℕ) (width height : ℕ) (x y : ℕ) : Bool :=
  [((-1 : ℤ), (-1 : ℤ)), (0, -1), (1, -1), (-1, 0), (1, 0), (-1, 1), (0, 1), (1, 1)].any
    fun d =>
      let nx := (x : ℤ) + d.1
      let ny := (y : ℤ) + d.2
      decide (0 ≤ nx ∧ nx < (width : ℤ) ∧ 0 ≤ ny ∧ ny < (height : ℤ)) &&
        (binary.getD (ny.toNat * width + nx.toNat) 0 == 0)

/-- The body of the double scan loop of `traceContours` (source lines 140–171)
for one pixel `(y, x)`: start a trace at an unvisited foreground edge pixel,
keeping the contour only when its length is at least 10. -/
def traceCell (binary : List ℕ) (width height : ℕ)
    (st : List Bool × List (List Pt)) (yx : ℕ × ℕ) : List Bool × List (List Pt) :=
  let idx := yx.1 * width + yx.2
  if binary.getD idx 0 = 255 ∧ st.1.getD idx false = false ∧
      hasBackgroundNeighbor binary width height yx.2 yx.1 then
    let r := borderFollowing binary st.1 (yx.2 : ℤ) (yx.1 : ℤ) width height
    if 10 ≤ r.1.length then (r.2, st.2 ++ [r.1]) else (r.2, st.2)
  else st

/-- `traceContours` (source lines 136–174): row-major scan of the interior
pixels with a fresh all-false visited mask. -/
def traceContours (binary : List ℕ) (width height : ℕ) : List (List Pt) :=
  ((((List.range' 1 (height - 1 - 1)).flatMap
      fun y => (List.range' 1 (width - 1 - 1)).map fun x => (y, x))).foldl
    (traceCell binary width height) (List.replicate (width * height) false, [])).2

/-! ## Candidate selection and orchestration (source lines 39–125) -/

/-- The eleven simplification tolerances of source line 79 (fractions of the
contour perimeter; the decimal literals are exact here). -/
def epsilonList : List ℚ :=
  [0.008, 0.01, 0.012, 0.015, 0.02, 0.025, 0.03, 0.035, 0.04, 0.045, 0.05]

/-- The vertex-count score bonus of source line 87. -/
def vertexBonus (v : ℕ) : ℚ :=
  if v = 3 then 0.30
  else if v = 4 then 0.25
  else if v = 5 then 0.10
  else if 8 ≤ v ∧ v ≤ 12 then 0.08
  else 0

/-- The per-contour tolerance search of source lines 76–93: for each
tolerance, simplify, discard approximations with fewer than 3 vertices,
classify, and keep the first strictly best score. -/
def bestCandidate (sq : ℚ → ℚ) (contour : List Pt) (area perimeter : ℚ) :
    Option (ShapeType × ℚ × List Pt) :=
  (epsilonList.foldl
    (fun acc eps =>
      let approx := approximatePolygon sq contour (eps * perimeter)
      if approx.length < 3 then acc
      else
        match classifyShapeAdvanced sq approx area perimeter (getBoundingBox approx) with
        | none => acc
        | some (ty, conf) =>
          let score := conf + vertexBonus approx.length
          if score > acc.2 then (some (ty, conf, approx), score) else acc)
    ((none : Option (ShapeType × ℚ × List Pt)), (0 : ℚ))).1

/-- The acceptance step of source lines 95–105: keep the winning candidate
only when its confidence is at least 0.55; box and centroid come from the
winning polygon, the area from the raw contour, rounded. -/
def acceptCandidate (area : ℚ) (best : Option (ShapeType × ℚ × List Pt)) :
    Option DetectedShape :=
  match best with
  | some (ty, conf, approx) =>
    if 0.55 ≤ conf then
      some { type := ty, confidence := conf,
             boundingBox := getBoundingBox approx,
             center := calculateCentroid approx,
             area := (jsRound area : ℚ) }
    else none
  | none => none

/-- The per-contour body of source lines 63–106: size, area and aspect
filters, candidate search, and the final `confidence ≥ 0.55` acceptance. -/
def contourShape (sq : ℚ → ℚ) (width height : ℕ) (contour : List Pt) :
    Option DetectedShape :=
  if contour.length < 10 then none
  else if calculateArea contour < max 50 (((width * height : ℕ) : ℚ) * 0.0005) ∨
      calculateArea contour > ((width * height : ℕ) : ℚ) * 0.9 then none
  else if min (aspectOf (getBoundingBox contour)) (1 / aspectOf (getBoundingBox contour))
      < 0.15 then none
  else
    acceptCandidate (calculateArea contour)
      (bestCandidate sq contour (calculateArea contour) (calculatePerimeter sq contour))

/-- The accumulation of accepted shapes over all contours (source lines 59–106). -/
def collectShapes (sq : ℚ → ℚ) (width height : ℕ) (contours : List (List Pt)) :
    List DetectedShape :=
  contours.foldl
    (fun acc c =>
      match contourShape sq width height c with
      | some s => acc ++ [s]
      | none => acc)
    []

/-- `calculateIoU` (source lines 538–551). -/
def calculateIoU (a b : BBox) : ℚ :=
  let x1 := max a.x b.x
  let y1 := max a.y b.y
  let x2 := min (a.x + a.width) (b.x + b.width)
  let y2 := min (a.y + a.height) (b.y + b.height)
  let intersection := max 0 (x2 - x1) * max 0 (y2 - y1)
  let union := a.width * a.height + b.width * b.height - intersection
  if union > 0 then intersection / union else 0

/-- The keep/discard loop of `nonMaxSuppression` (source lines 523–533):
keep the head of the sorted list and drop every remaining shape whose IoU
with it exceeds the threshold. -/
def nmsLoop (thr : ℚ) : ℕ → List DetectedShape → List DetectedShape
  | _, [] => []
  | 0, _ :: _ => []
  | f+1, current :: rest =>
    current ::
      nmsLoop thr f (rest.filter fun s => !decide (calculateIoU current.boundingBox s.boundingBox > thr))

/-- `nonMaxSuppression` (source lines 517–536): stable sort by descending
confidence, then the greedy keep/discard loop.  `nmsLoop` consumes at least
one element of the (only ever shrinking) list per round, so a fuel equal to
the list length is never exhausted. -/
def nonMaxSuppression (shapes : List DetectedShape) (thr : ℚ) : List DetectedShape :=
  if shapes.length = 0 then []
  else
    let sorted := shapes.insertionSort fun a b => b.confidence ≤ a.confidence
    nmsLoop thr sorted.length sorted

/-- `detectShapes` (source lines 39–125).  The two `performance.now()` clock
readings are inputs `startTime`/`endTime`.  The body never fails in this
embedding (JS run-time faults such as the simplifier's stack overflow are the
only way into the `catch` of lines 117–124, which returns
`{shapes: [], processingTime, imageWidth, imageHeight}`). -/
def detectShapes (sq : ℚ → ℚ) (data : List ℕ) (width height : ℕ)
    (startTime endTime : ℚ) : DetectionResult :=
  let gray := toGrayscale data width height
  let threshold := chosenThreshold gray width height
  let binary := binarize gray threshold
  let contours := traceContours binary width height
  let shapes := collectShapes sq width height contours
  { shapes := nonMaxSuppression shapes 0.5,
    processingTime := endTime - startTime,
    imageWidth := width,
    imageHeight := height }

/-! # Theorems -/

/-! ## C1: determinism of `detectShapes` -/

unseal Rat.add Rat.mul Rat.inv Rat.sub Rat.ofScientific in
/-- C1 counterexample: two calls of `detectShapes` on the same (empty) buffer
with different clock readings return different `DetectionResult` values — the
`processingTime` field is elapsed wall-clock time, not a function of the
buffer, so the results are not bit-identical. -/
theorem detectShapes_not_bit_identical :
    detectShapes ratSqrt [] 0 0 0 1 ≠ detectShapes ratSqrt [] 0 0 0 2 := by
  decide

/-- C1 (amended): two calls of `detectShapes` on identical buffer contents
agree on the `shapes` list, `imageWidth` and `imageHeight`; only the
`processingTime` field (elapsed wall-clock time between the two
`performance.now()` readings) can differ between the calls. -/
theorem detectShapes_deterministic (sq : ℚ → ℚ) (data : List ℕ)
    (width height : ℕ) (s1 e1 s2 e2 : ℚ) :
    (detectShapes sq data width height s1 e1).shapes =
      (detectShapes sq data width height s2 e2).shapes ∧
    (detectShapes sq data width height s1 e1).imageWidth =
      (detectShapes sq data width height s2 e2).imageWidth ∧
    (detectShapes sq data width height s1 e1).imageHeight =
      (detectShapes sq data width height s2 e2).imageHeight :=
  ⟨rfl, rfl, rfl⟩

/-! ## C10: `approximatePolygon` returns at least 3 points -/

/-- C10: on a contour of at least 3 points, `approximatePolygon` returns at
least 3 points at every tolerance: it returns either the simplified sequence
(only when that has at least 3 points) or the original contour.  In
particular the `approx.length < 3` test of source line 81 never fires for
contours the candidate selector feeds in (length ≥ 10 ≥ 3). -/
theorem approximatePolygon_min_vertices (sq : ℚ → ℚ) (contour : List Pt)
    (epsilon : ℚ) (h : 3 ≤ contour.length) :
    3 ≤ (approximatePolygon sq contour epsilon).length := by
  unfold approximatePolygon
  split
  · exact h
  · split
    · assumption
    · exact h

unseal Rat.add Rat.mul Rat.inv Rat.sub Rat.ofScientific in
/-- Witness for C10 at a concrete contour and tolerance. -/
theorem approximatePolygon_min_vertices_holds :
    3 ≤ ([⟨0,0⟩, ⟨1,1⟩, ⟨2,0⟩, ⟨3,0⟩, ⟨4,0⟩] : List Pt).length ∧
    3 ≤ (approximatePolygon ratSqrt [⟨0,0⟩, ⟨1,1⟩, ⟨2,0⟩, ⟨3,0⟩, ⟨4,0⟩] 2).length :=
  ⟨by decide,
   approximatePolygon_min_vertices ratSqrt [⟨0,0⟩, ⟨1,1⟩, ⟨2,0⟩, ⟨3,0⟩, ⟨4,0⟩] 2 (by decide)⟩

/-! ## C6: the binarisation stage -/

/-- C6: the binarisation stage of `detectShapes` uses the Otsu threshold
exactly when the fraction of pixels with luminance strictly below it lies
strictly between 0.05 and 0.50, and the fixed threshold 128 otherwise; and a
pixel of the mask is foreground (255) iff its luminance is strictly below the
chosen threshold. -/
theorem binarization_spec (gray : List (Option ℚ)) (width height : ℕ)
    (i : ℕ) (v : ℚ) (hv : gray.get? i = some (some v)) :
    ((0.05 < otsuRa gray width height ∧ otsuRa gray width height < 0.50) →
      chosenThreshold gray width height = otsuThreshold gray) ∧
    (¬(0.05 < otsuRa gray width height ∧ otsuRa gray width height < 0.50) →
      chosenThreshold gray width height = 128) ∧
    ((binarize gray (chosenThreshold gray width height)).get? i = some 255 ↔
      v < chosenThreshold gray width height) := by
  refine ⟨?_, ?_, ?_⟩
  · intro h
    simp [chosenThreshold, h]
  · intro h
    simp only [chosenThreshold, if_neg h]
  · unfold binarize jsLtOpt
    simp only [List.get?_eq_getElem?] at hv ⊢
    rw [List.getElem?_map, hv]
    by_cases hlt : v < chosenThreshold gray width height
    · simp [hlt]
    · simp [hlt]

/-! ## C2: post-NMS pairwise IoU bound -/

/-- Every element kept by the NMS loop comes from its input list. -/
theorem nmsLoop_subset (thr : ℚ) (fuel : ℕ) (l : List DetectedShape) :
    ∀ x ∈ nmsLoop thr fuel l, x ∈ l := by
  induction fuel generalizing l with
  | zero => cases l <;> simp [nmsLoop]
  | succ f ih =>
    cases l with
    | nil => simp [nmsLoop]
    | cons c rest =>
      intro x hx
      simp only [nmsLoop, List.mem_cons] at hx
      rcases hx with rfl | hx
      · exact List.mem_cons_self _ _
      · exact List.mem_cons_of_mem _ (List.mem_of_mem_filter (ih _ x hx))

/-- The NMS loop output is pairwise within the IoU threshold: each kept shape
filtered every later survivor down to IoU ≤ threshold. -/
theorem nmsLoop_pairwise (thr : ℚ) (fuel : ℕ) (l : List DetectedShape) :
    (nmsLoop thr fuel l).Pairwise
      (fun a b => calculateIoU a.boundingBox b.boundingBox ≤ thr) := by
  induction fuel generalizing l with
  | zero => cases l <;> simp [nmsLoop]
  | succ f ih =>
    cases l with
    | nil => simp [nmsLoop]
    | cons c rest =>
      simp only [nmsLoop]
      refine List.Pairwise.cons ?_ (ih _)
      intro b hb
      have hmem := nmsLoop_subset thr f _ b hb
      have hfil := List.of_mem_filter hmem
      simpa [not_lt] using hfil

/-- `calculateIoU` is symmetric. -/
theorem calculateIoU_comm (a b : BBox) : calculateIoU a b = calculateIoU b a := by
  simp only [calculateIoU]
  rw [max_comm a.x, max_comm a.y, min_comm (a.x + a.width), min_comm (a.y + a.height),
    add_comm (a.width * a.height)]

/-- The `shapes` field of `detectShapes` is the NMS of the collected shapes
at threshold 0.5. -/
theorem detectShapes_shapes_def (sq : ℚ → ℚ) (data : List ℕ) (width height : ℕ)
    (t0 t1 : ℚ) :
    (detectShapes sq data width height t0 t1).shapes =
      nonMaxSuppression
        (collectShapes sq width height
          (traceContours
            (binarize (toGrayscale data width height)
              (chosenThreshold (toGrayscale data width height) width height))
            width height)) 0.5 := rfl

/-- C2: in the result of `detectShapes`, any two distinct shapes have
bounding-box IoU at most 0.5 (stated for both orders of the pair; zero union
gives IoU 0 by definition of `calculateIoU`). -/
theorem detectShapes_pairwise_iou (sq : ℚ → ℚ) (data : List ℕ)
    (width height : ℕ) (t0 t1 : ℚ) :
    (detectShapes sq data width height t0 t1).shapes.Pairwise
      (fun a b => calculateIoU a.boundingBox b.boundingBox ≤ 0.5 ∧
                  calculateIoU b.boundingBox a.boundingBox ≤ 0.5) := by
  rw [detectShapes_shapes_def]
  unfold nonMaxSuppression
  split
  · simp
  · refine (nmsLoop_pairwise 0.5 _ _).imp ?_
    intro a b hab
    exact ⟨hab, by rw [calculateIoU_comm]; exact hab⟩

/-! ## C3 and C5: confidence bounds and output types -/

/-- `starVerdict` only ever reports a star with confidence at most 0.90. -/
theorem starVerdict_spec (q s : ℚ) (ty : ShapeType) (c : ℚ)
    (h : starVerdict q s = some (ty, c)) : ty = .star ∧ c ≤ 0.90 := by
  unfold starVerdict at h
  split at h
  · simp only [Option.some.injEq, Prod.mk.injEq] at h
    obtain ⟨rfl, rfl⟩ := h
    exact ⟨rfl, min_le_left _ _⟩
  · exact absurd h (by simp)

/-- `starCandidate` only ever reports a star with confidence at most 0.90. -/
theorem starCandidate_spec (sq : ℚ → ℚ) (approx : List Pt) (ty : ShapeType)
    (c : ℚ) (h : starCandidate sq approx = some (ty, c)) :
    ty = .star ∧ c ≤ 0.90 := by
  unfold starCandidate at h
  exact starVerdict_spec _ _ _ _ h

set_option linter.unusedTactic false in
/-- The decision tree only produces the five output types, with confidence at
most 0.95, provided the star block does. -/
theorem classifyCore_spec (vertices : ℕ)
    (circularity normalizedAspect convexity extent : ℚ)
    (starOutcome : Option (ShapeType × ℚ))
    (hstar : ∀ ty c, starOutcome = some (ty, c) → ty = .star ∧ c ≤ 0.90)
    (ty : ShapeType) (c : ℚ)
    (h : classifyCore vertices circularity normalizedAspect convexity extent
      starOutcome = some (ty, c)) :
    (ty = .circle ∨ ty = .triangle ∨ ty = .rectangle ∨ ty = .pentagon ∨ ty = .star) ∧
    c ≤ 0.95 := by
  unfold classifyCore at h
  repeat' split at h
  all_goals first
    | exact Option.noConfusion h
    | (simp only [Option.some.injEq, Prod.mk.injEq] at h
       obtain ⟨rfl, rfl⟩ := h
       refine ⟨?_, ?_⟩
       · simp
       · first
           | exact min_le_of_left_le (by norm_num)
           | norm_num)
    | (rename_i hsome
       simp only [Option.some.injEq] at h
       subst h
       first
         | (rcases hstar _ _ hsome with ⟨h1, h2⟩
            refine ⟨?_, le_trans h2 (by norm_num)⟩
            simp [h1])
         | (split at hsome
            · rcases hstar _ _ hsome with ⟨h1, h2⟩
              refine ⟨?_, le_trans h2 (by norm_num)⟩
              simp [h1]
            · exact Option.noConfusion hsome))

/-- Every classification outcome has one of the five output types (never
`"square"`) and confidence at most 0.95. -/
theorem classifyShapeAdvanced_spec (sq : ℚ → ℚ) (approx : List Pt)
    (area perimeter : ℚ) (bbox : BBox) (ty : ShapeType) (c : ℚ)
    (h : classifyShapeAdvanced sq approx area perimeter bbox = some (ty, c)) :
    (ty = .circle ∨ ty = .triangle ∨ ty = .rectangle ∨ ty = .pentagon ∨ ty = .star) ∧
    c ≤ 0.95 := by
  unfold classifyShapeAdvanced at h
  exact classifyCore_spec _ _ _ _ _ _
    (fun ty' c' h' => starCandidate_spec sq approx ty' c' h') ty c h

/-- The winning candidate of the tolerance search inherits the classifier
outcome facts. -/
theorem bestCandidate_spec (sq : ℚ → ℚ) (contour : List Pt) (area perimeter : ℚ)
    (ty : ShapeType) (c : ℚ) (ap : List Pt)
    (h : bestCandidate sq contour area perimeter = some (ty, c, ap)) :
    (ty = .circle ∨ ty = .triangle ∨ ty = .rectangle ∨ ty = .pentagon ∨ ty = .star) ∧
    c ≤ 0.95 := by
  unfold bestCandidate at h
  suffices haux : ∀ (l : List ℚ) (acc : Option (ShapeType × ℚ × List Pt) × ℚ),
      (∀ ty' c' ap', acc.1 = some (ty', c', ap') →
        (ty' = ShapeType.circle ∨ ty' = ShapeType.triangle ∨ ty' = ShapeType.rectangle ∨
          ty' = ShapeType.pentagon ∨ ty' = ShapeType.star) ∧ c' ≤ 0.95) →
      ∀ ty' c' ap', (l.foldl (fun acc eps =>
        let approx := approximatePolygon sq contour (eps * perimeter)
        if approx.length < 3 then acc
        else
          match classifyShapeAdvanced sq approx area perimeter (getBoundingBox approx) with
          | none => acc
          | some (ty2, conf) =>
            let score := conf + vertexBonus approx.length
            if score > acc.2 then (some (ty2, conf, approx), score) else acc) acc).1
          = some (ty', c', ap') →
        (ty' = ShapeType.circle ∨ ty' = ShapeType.triangle ∨ ty' = ShapeType.rectangle ∨
          ty' = ShapeType.pentagon ∨ ty' = ShapeType.star) ∧ c' ≤ 0.95 by
    exact haux epsilonList (none, 0) (by intro _ _ _ hx; exact absurd hx (by simp)) ty c ap h
  intro l
  induction l with
  | nil => intro acc hacc ty' c' ap' h'; exact hacc ty' c' ap' h'
  | cons e t ih =>
    intro acc hacc ty' c' ap' h'
    rw [List.foldl_cons] at h'
    refine ih _ ?_ ty' c' ap' h'
    intro ty2 c2 ap2 hstep
    dsimp only at hstep
    split at hstep
    · exact hacc _ _ _ hstep
    · split at hstep
      · exact hacc _ _ _ hstep
      · rename_i heq
        split at hstep
        · simp only [Option.some.injEq, Prod.mk.injEq] at hstep
          obtain ⟨rfl, rfl, rfl⟩ := hstep
          exact classifyShapeAdvanced_spec sq _ area perimeter _ _ _ heq
        · exact hacc _ _ _ hstep

/-- Every shape accepted for a contour has confidence in `[0.55, 0.95]` and
one of the five output types. -/
theorem contourShape_spec (sq : ℚ → ℚ) (width height : ℕ) (contour : List Pt)
    (s : DetectedShape) (h : contourShape sq width height contour = some s) :
    0.55 ≤ s.confidence ∧ s.confidence ≤ 0.95 ∧
    (s.type = .circle ∨ s.type = .triangle ∨ s.type = .rectangle ∨
      s.type = .pentagon ∨ s.type = .star) := by
  unfold contourShape acceptCandidate at h
  repeat' split at h
  all_goals try exact Option.noConfusion h
  rename_i hbest hconf
  simp only [Option.some.injEq] at h
  subst h
  have := bestCandidate_spec sq contour _ _ _ _ _ hbest
  exact ⟨hconf, this.2, this.1⟩

/-- Every collected shape satisfies the confidence and type facts. -/
theorem collectShapes_spec (sq : ℚ → ℚ) (width height : ℕ)
    (contours : List (List Pt)) :
    ∀ s ∈ collectShapes sq width height contours,
      0.55 ≤ s.confidence ∧ s.confidence ≤ 0.95 ∧
      (s.type = .circle ∨ s.type = .triangle ∨ s.type = .rectangle ∨
        s.type = .pentagon ∨ s.type = .star) := by
  unfold collectShapes
  suffices haux : ∀ (cs : List (List Pt)) (acc : List DetectedShape),
      (∀ s ∈ acc, 0.55 ≤ s.confidence ∧ s.confidence ≤ 0.95 ∧
        (s.type = ShapeType.circle ∨ s.type = ShapeType.triangle ∨
          s.type = ShapeType.rectangle ∨ s.type = ShapeType.pentagon ∨
          s.type = ShapeType.star)) →
      ∀ s ∈ cs.foldl (fun acc c =>
          match contourShape sq width height c with
          | some sh => acc ++ [sh]
          | none => acc) acc,
        0.55 ≤ s.confidence ∧ s.confidence ≤ 0.95 ∧
        (s.type = ShapeType.circle ∨ s.type = ShapeType.triangle ∨
          s.type = ShapeType.rectangle ∨ s.type = ShapeType.pentagon ∨
          s.type = ShapeType.star) by
    exact haux contours [] (by simp)
  intro cs
  induction cs with
  | nil => intro acc hacc s hs; exact hacc s hs
  | cons c t ih =>
    intro acc hacc s hs
    rw [List.foldl_cons] at hs
    refine ih _ ?_ s hs
    intro s' hs'
    cases hcs : contourShape sq width height c with
    | none => rw [hcs] at hs'; exact hacc s' hs'
    | some sh =>
      rw [hcs] at hs'
      rcases List.mem_append.mp hs' with hold | hnew
      · exact hacc s' hold
      · have : s' = sh := by simpa using hnew
        subst this
        exact contourShape_spec sq width height c s' hcs

/-- NMS keeps a subset of its input. -/
theorem nonMaxSuppression_subset (shapes : List DetectedShape) (thr : ℚ) :
    ∀ x ∈ nonMaxSuppression shapes thr, x ∈ shapes := by
  unfold nonMaxSuppression
  split
  · simp
  · intro x hx
    have hmem := nmsLoop_subset thr _ _ x hx
    exact (List.Perm.mem_iff (List.perm_insertionSort _ shapes)).mp hmem

/-- C3: every shape in a `detectShapes` result has confidence at least 0.55
and at most 1.0 (indeed at most 0.95). -/
theorem detectShapes_confidence_bounds (sq : ℚ → ℚ) (data : List ℕ)
    (width height : ℕ) (t0 t1 : ℚ) :
    (detectShapes sq data width height t0 t1).shapes.Forall
      (fun s => 0.55 ≤ s.confidence ∧ s.confidence ≤ 1) := by
  rw [List.forall_iff_forall_mem]
  intro s hs
  rw [detectShapes_shapes_def] at hs
  have h1 := nonMaxSuppression_subset _ _ s hs
  have h2 := collectShapes_spec sq width height _ s h1
  exact ⟨h2.1, le_trans h2.2.1 (by norm_num)⟩

/-- C5: no shape in a `detectShapes` result has type `"square"`: every
detected shape's type is circle, triangle, rectangle, pentagon or star. -/
theorem detectShapes_no_square (sq : ℚ → ℚ) (data : List ℕ)
    (width height : ℕ) (t0 t1 : ℚ) :
    (detectShapes sq data width height t0 t1).shapes.Forall
      (fun s => s.type ≠ ShapeType.square ∧
        (s.type = .circle ∨ s.type = .triangle ∨ s.type = .rectangle ∨
          s.type = .pentagon ∨ s.type = .star)) := by
  rw [List.forall_iff_forall_mem]
  intro s hs
  rw [detectShapes_shapes_def] at hs
  have h1 := nonMaxSuppression_subset _ _ s hs
  have h2 := (collectShapes_spec sq width height _ s h1).2.2
  refine ⟨?_, h2⟩
  rcases h2 with h | h | h | h | h <;> simp [h]

/-! ## C4: error handling at the orchestration boundary -/

/-- With no buffer data at all, every luminance read is out of range (`NaN`). -/
theorem toGrayscale_nil (width height : ℕ) :
    ∀ g ∈ toGrayscale [] width height, g = none := by
  intro g hg
  unfold toGrayscale at hg
  simp only [List.mem_map] at hg
  obtain ⟨i, _, rfl⟩ := hg
  rfl

/-- A mask built from `NaN`-only luminances has no foreground pixel. -/
theorem binarize_no_fg_of_none (gray : List (Option ℚ)) (t : ℚ)
    (hg : ∀ g ∈ gray, g = none) :
    ∀ idx, (binarize gray t).getD idx 0 ≠ 255 := by
  intro idx
  rw [List.getD_eq_getElem?_getD]
  cases hb : (binarize gray t)[idx]? with
  | none => simp
  | some b =>
    have hmem : b ∈ binarize gray t := List.getElem?_mem hb
    unfold binarize at hmem
    simp only [List.mem_map] at hmem
    obtain ⟨g, hgm, rfl⟩ := hmem
    rw [hg g hgm]
    simp [jsLtOpt]

/-- Contour extraction never starts a trace on a mask without foreground. -/
theorem traceContours_no_fg (binary : List ℕ) (width height : ℕ)
    (hb : ∀ idx, binary.getD idx 0 ≠ 255) :
    traceContours binary width height = [] := by
  unfold traceContours
  have step : ∀ st yx, traceCell binary width height st yx = st := by
    intro st yx
    unfold traceCell
    rw [if_neg]
    rintro ⟨h255, -⟩
    exact hb _ h255
  have haux : ∀ (cells : List (ℕ × ℕ)) (st : List Bool × List (List Pt)),
      cells.foldl (traceCell binary width height) st = st := by
    intro cells
    induction cells with
    | nil => intro st; rfl
    | cons c t ih => intro st; rw [List.foldl_cons, step st c]; exact ih st
  rw [haux]

/-- Contour extraction scans no cell at all on a zero-width or zero-height
image. -/
theorem traceContours_degenerate (binary : List ℕ) (width height : ℕ)
    (h : width = 0 ∨ height = 0) :
    traceContours binary width height = [] := by
  unfold traceContours
  rcases h with h | h <;> subst h
  · rw [show ((List.range' 1 (height - 1 - 1)).flatMap
        fun y => (List.range' 1 (0 - 1 - 1)).map fun x => (y, x)) = [] from
      List.flatMap_eq_nil_iff.mpr (fun x _ => rfl)]
    rfl
  · rfl

/-- C4 (amended): on an empty input buffer — zero width, zero height, or no
data bytes at all — `detectShapes` returns the empty result carrying the
declared dimensions and the elapsed time.  (The `catch` of source lines
117–124 producing the same empty result fires only on a thrown JS run-time
fault such as the simplifier's stack overflow; the embedded pipeline is
total.  A malformed but non-empty buffer does *not* generally yield an empty
result — see the counterexample.) -/
theorem detectShapes_empty_buffer (sq : ℚ → ℚ) (data : List ℕ)
    (width height : ℕ) (t0 t1 : ℚ)
    (h : width = 0 ∨ height = 0 ∨ data = []) :
    detectShapes sq data width height t0 t1 =
      { shapes := [], processingTime := t1 - t0,
        imageWidth := width, imageHeight := height } := by
  have hcon : traceContours
      (binarize (toGrayscale data width height)
        (chosenThreshold (toGrayscale data width height) width height))
      width height = [] := by
    rcases h with h | h | h
    · exact traceContours_degenerate _ _ _ (Or.inl h)
    · exact traceContours_degenerate _ _ _ (Or.inr h)
    · subst h
      exact traceContours_no_fg _ _ _
        (binarize_no_fg_of_none _ _ (toGrayscale_nil width height))
  simp only [detectShapes]
  rw [hcon]
  rfl

/-- Witness for `detectShapes_empty_buffer` at a concrete empty buffer. -/
theorem detectShapes_empty_buffer_holds :
    ((3:ℕ) = 0 ∨ (3:ℕ) = 0 ∨ ([] : List ℕ) = []) ∧
    detectShapes ratSqrt [] 3 3 0 1 =
      { shapes := [], processingTime := 1 - 0, imageWidth := 3, imageHeight := 3 } :=
  ⟨Or.inr (Or.inr rfl), detectShapes_empty_buffer ratSqrt [] 3 3 0 1 (Or.inr (Or.inr rfl))⟩

/-- RGBA bytes of 9 rows of 8 all-black pixels (288 bytes).  Passed to
`detectShapes` with a declared height of 10, it is a malformed buffer: 288
bytes instead of the 320 the dimensions require, so row 9 reads out of range
(`NaN` luminance, hence background). -/
def dataSample : List ℕ :=
  (List.range (4 * 8 * 9)).map fun i => if i % 4 = 3 then 255 else 0

set_option maxHeartbeats 2000000 in
unseal Rat.add Rat.mul Rat.inv Rat.sub Rat.ofScientific in
/-- C4 counterexample: a malformed input buffer (too few bytes for the
declared dimensions) on which `detectShapes` does **not** return an empty
shapes list — the valid prefix is a black 8×9 block whose border is traced as
a rectangle, the missing row reads as `NaN` (background), and the pipeline
completes without any fault reaching the catch. -/
theorem detectShapes_malformed_buffer_detects :
    dataSample.length ≠ 4 * 8 * 10 ∧
    (detectShapes ratSqrt dataSample 8 10 0 1).shapes ≠ [] :=
  ⟨by decide, by decide⟩

/-! ## C7: pixels and contours

The walk of `borderFollowing` checks only `binary`, never `visited`, so a
later trace may cross pixels of an earlier contour; what the visited mask
does guarantee is that no trace *starts* on a pixel of an earlier contour. -/

/-- Setting a `true` preserves every `true` already present. -/
theorem getD_set_true (l : List Bool) (j idx : ℕ) (h : l.getD idx false = true) :
    (l.set j true).getD idx false = true := by
  rw [List.getD_eq_getElem?_getD] at h ⊢
  rw [List.getElem?_set]
  split
  · rename_i hj
    subst hj
    split
    · simp
    · rename_i hlen
      rw [List.getElem?_eq_none (by omega)] at h
      simp at h
  · exact h

/-- Setting an in-range `true` makes that position `true`. -/
theorem getD_set_self_true (l : List Bool) (j : ℕ) (hj : j < l.length) :
    (l.set j true).getD j false = true := by
  rw [List.getD_eq_getElem?_getD, List.getElem?_set_self (by simpa using hj)]
  rfl

/-- A successful neighbour scan returns an in-bounds pixel. -/
theorem findNext_bounds (binary : List ℕ) (width height : ℕ) (cx cy : ℤ)
    (dir : ℕ) (nx ny : ℤ) (nd : ℕ)
    (h : findNext binary width height cx cy dir = some (nx, ny, nd)) :
    0 ≤ nx ∧ nx < (width : ℤ) ∧ 0 ≤ ny ∧ ny < (height : ℤ) := by
  unfold findNext at h
  have haux : ∀ (l : List ℕ) (acc : Option (ℤ × ℤ × ℕ)),
      (∀ nx' ny' nd', acc = some (nx', ny', nd') →
        0 ≤ nx' ∧ nx' < (width : ℤ) ∧ 0 ≤ ny' ∧ ny' < (height : ℤ)) →
      l.foldl (fun acc i =>
        match acc with
        | some r => some r
        | none =>
          let checkDir := (dir + i) % 8
          let d := directions.getD checkDir (0, 0)
          let nx := cx + d.1
          let ny := cy + d.2
          if 0 ≤ nx ∧ nx < (width : ℤ) ∧ 0 ≤ ny ∧ ny < (height : ℤ) ∧
              binary.getD (ny.toNat * width + nx.toNat) 0 = 255 then
            some (nx, ny, (checkDir + 6) % 8)
          else none) acc = some (nx, ny, nd) →
      0 ≤ nx ∧ nx < (width : ℤ) ∧ 0 ≤ ny ∧ ny < (height : ℤ) := by
    intro l
    induction l with
    | nil => intro acc hacc h'; exact hacc _ _ _ h'
    | cons i t ih =>
      intro acc hacc h'
      rw [List.foldl_cons] at h'
      refine ih _ ?_ h'
      intro nx' ny' nd' hstep
      cases acc with
      | some r => exact hacc _ _ _ hstep
      | none =>
        dsimp only at hstep
        split at hstep
        · rename_i hcond
          simp only [Option.some.injEq, Prod.mk.injEq] at hstep
          obtain ⟨rfl, rfl, rfl⟩ := hstep
          exact ⟨hcond.1, hcond.2.1, hcond.2.2.1, hcond.2.2.2.1⟩
        · exact Option.noConfusion hstep
  exact haux _ _ (fun _ _ _ hx => Option.noConfusion hx) h

/-- `bfRound` preserves the length of the visited mask when its continuation
does. -/
theorem bfRound_length (binary : List ℕ) (width height : ℕ) (sx sy cx cy : ℤ)
    (dir : ℕ) (visited : List Bool)
    (next : ℤ → ℤ → ℕ → List Bool → List Pt × List Bool)
    (hnext : ∀ nx ny nd (v : List Bool), (next nx ny nd v).2.length = v.length) :
    (bfRound binary width height sx sy cx cy dir visited next).2.length =
      visited.length := by
  unfold bfRound
  cases findNext binary width height cx cy dir with
  | none => simp
  | some r =>
    obtain ⟨nx, ny, nd⟩ := r
    dsimp only
    split
    · simp
    · rw [hnext]; simp

/-- `bfLoop` preserves the length of the visited mask. -/
theorem bfLoop_length (binary : List ℕ) (width height : ℕ) (sx sy : ℤ) :
    ∀ fuel cx cy dir visited,
      (bfLoop binary width height sx sy fuel cx cy dir visited).2.length =
        visited.length := by
  intro fuel
  induction fuel using Nat.strong_induction_on with
  | _ fuel ih =>
    intro cx cy dir visited
    rcases fuel with _ | _ | f
    · rw [bfLoop]; exact bfRound_length _ _ _ _ _ _ _ _ _ _ (fun _ _ _ _ => rfl)
    · rw [bfLoop]; exact bfRound_length _ _ _ _ _ _ _ _ _ _ (fun _ _ _ _ => rfl)
    · rw [bfLoop]
      exact bfRound_length _ _ _ _ _ _ _ _ _ _
        (fun nx ny nd v => ih (f + 1) (by omega) nx ny nd v)

/-- `bfRound` only ever adds `true` marks to the visited mask. -/
theorem bfRound_mono (binary : List ℕ) (width height : ℕ) (sx sy cx cy : ℤ)
    (dir : ℕ) (visited : List Bool)
    (next : ℤ → ℤ → ℕ → List Bool → List Pt × List Bool) (idx : ℕ)
    (hidx : visited.getD idx false = true)
    (hnext : ∀ nx ny nd (v : List Bool), v.getD idx false = true →
      (next nx ny nd v).2.getD idx false = true) :
    (bfRound binary width height sx sy cx cy dir visited next).2.getD idx false =
      true := by
  unfold bfRound
  cases findNext binary width height cx cy dir with
  | none => exact getD_set_true _ _ _ hidx
  | some r =>
    obtain ⟨nx, ny, nd⟩ := r
    dsimp only
    split
    · exact getD_set_true _ _ _ hidx
    · exact hnext _ _ _ _ (getD_set_true _ _ _ hidx)

/-- `bfLoop` only ever adds `true` marks to the visited mask. -/
theorem bfLoop_visited_mono (binary : List ℕ) (width height : ℕ) (sx sy : ℤ) :
    ∀ fuel cx cy dir visited idx, visited.getD idx false = true →
      (bfLoop binary width height sx sy fuel cx cy dir visited).2.getD idx false =
        true := by
  intro fuel
  induction fuel using Nat.strong_induction_on with
  | _ fuel ih =>
    intro cx cy dir visited idx hidx
    rcases fuel with _ | _ | f
    · rw [bfLoop]; exact bfRound_mono _ _ _ _ _ _ _ _ _ _ _ hidx (fun _ _ _ _ hv => hv)
    · rw [bfLoop]; exact bfRound_mono _ _ _ _ _ _ _ _ _ _ _ hidx (fun _ _ _ _ hv => hv)
    · rw [bfLoop]
      exact bfRound_mono _ _ _ _ _ _ _ _ _ _ _ hidx
        (fun nx ny nd v hv => ih (f + 1) (by omega) nx ny nd v idx hv)

/-- The first point of a `bfRound` is the current pixel. -/
theorem bfRound_head (binary : List ℕ) (width height : ℕ) (sx sy cx cy : ℤ)
    (dir : ℕ) (visited : List Bool)
    (next : ℤ → ℤ → ℕ → List Bool → List Pt × List Bool) :
    (bfRound binary width height sx sy cx cy dir visited next).1.head? =
      some ⟨(cx : ℚ), (cy : ℚ)⟩ := by
  unfold bfRound
  cases findNext binary width height cx cy dir with
  | none => rfl
  | some r =>
    obtain ⟨nx, ny, nd⟩ := r
    dsimp only
    split
    · rfl
    · rfl

/-- The first point of a border-following walk is its start pixel. -/
theorem bfLoop_head (binary : List ℕ) (width height : ℕ) (sx sy : ℤ)
    (fuel : ℕ) (cx cy : ℤ) (dir : ℕ) (visited : List Bool) :
    (bfLoop binary width height sx sy fuel cx cy dir visited).1.head? =
      some ⟨(cx : ℚ), (cy : ℚ)⟩ := by
  rcases fuel with _ | _ | f <;> (rw [bfLoop]; exact bfRound_head _ _ _ _ _ _ _ _ _ _)

/-- Every point pushed by a `bfRound` is marked visited in the returned mask,
provided the continuation marks its own points and preserves marks. -/
theorem bfRound_marks (binary : List ℕ) (width height : ℕ) (sx sy cx cy : ℤ)
    (dir : ℕ) (visited : List Bool)
    (next : ℤ → ℤ → ℕ → List Bool → List Pt × List Bool)
    (h1 : 0 ≤ cx) (h2 : cx < (width : ℤ)) (h3 : 0 ≤ cy) (h4 : cy < (height : ℤ))
    (hlen : visited.length = width * height)
    (hnext : ∀ nx ny nd (v : List Bool),
      findNext binary width height cx cy dir = some (nx, ny, nd) →
      v.length = width * height →
      (∀ idx, v.getD idx false = true → (next nx ny nd v).2.getD idx false = true) ∧
      (∀ p ∈ (next nx ny nd v).1, ∃ a b : ℤ, p = (⟨(a : ℚ), (b : ℚ)⟩ : Pt) ∧
        (next nx ny nd v).2.getD (b.toNat * width + a.toNat) false = true)) :
    ∀ p ∈ (bfRound binary width height sx sy cx cy dir visited next).1,
      ∃ a b : ℤ, p = (⟨(a : ℚ), (b : ℚ)⟩ : Pt) ∧
        (bfRound binary width height sx sy cx cy dir visited next).2.getD
          (b.toNat * width + a.toNat) false = true := by
  have hidx : cy.toNat * width + cx.toNat < width * height := by
    have hcx : cx.toNat < width := by omega
    have hcy : cy.toNat < height := by omega
    calc cy.toNat * width + cx.toNat < cy.toNat * width + width := by omega
    _ = (cy.toNat + 1) * width := by ring
    _ ≤ height * width := Nat.mul_le_mul_right width (by omega)
    _ = width * height := Nat.mul_comm _ _
  have hself : (visited.set (cy.toNat * width + cx.toNat) true).getD
      (cy.toNat * width + cx.toNat) false = true :=
    getD_set_self_true _ _ (by rw [hlen]; exact hidx)
  intro p hp
  unfold bfRound at hp ⊢
  cases hf : findNext binary width height cx cy dir with
  | none =>
    rw [hf] at hp
    simp only [List.mem_singleton] at hp
    subst hp
    exact ⟨cx, cy, rfl, hself⟩
  | some r =>
    obtain ⟨nx, ny, nd⟩ := r
    rw [hf] at hp
    dsimp only at hp ⊢
    split at hp <;> rename_i hstop
    · rw [if_pos hstop]
      simp only [List.mem_singleton] at hp
      subst hp
      exact ⟨cx, cy, rfl, hself⟩
    · rw [if_neg hstop]
      obtain ⟨hmono, hmarks⟩ := hnext nx ny nd
        (visited.set (cy.toNat * width + cx.toNat) true) hf
        (by rw [List.length_set]; exact hlen)
      simp only [List.mem_cons] at hp
      rcases hp with rfl | hp
      · exact ⟨cx, cy, rfl, hmono (cy.toNat * width + cx.toNat) hself⟩
      · exact hmarks p hp

/-- Every point pushed by a border-following walk is marked visited in the
returned mask (indexed by its integer coordinates). -/
theorem bfLoop_marks (binary : List ℕ) (width height : ℕ) (sx sy : ℤ) :
    ∀ fuel cx cy dir visited,
      0 ≤ cx → cx < (width : ℤ) → 0 ≤ cy → cy < (height : ℤ) →
      visited.length = width * height →
      ∀ p ∈ (bfLoop binary width height sx sy fuel cx cy dir visited).1,
        ∃ a b : ℤ, p = (⟨(a : ℚ), (b : ℚ)⟩ : Pt) ∧
          (bfLoop binary width height sx sy fuel cx cy dir visited).2.getD
            (b.toNat * width + a.toNat) false = true := by
  intro fuel
  induction fuel using Nat.strong_induction_on with
  | _ fuel ih =>
    intro cx cy dir visited h1 h2 h3 h4 hlen
    rcases fuel with _ | _ | f
    · rw [bfLoop]
      exact bfRound_marks _ _ _ _ _ _ _ _ _ _ h1 h2 h3 h4 hlen
        (fun nx ny nd v _ _ => ⟨fun _ hv => hv, fun p hp => absurd hp (List.not_mem_nil p)⟩)
    · rw [bfLoop]
      exact bfRound_marks _ _ _ _ _ _ _ _ _ _ h1 h2 h3 h4 hlen
        (fun nx ny nd v _ _ => ⟨fun _ hv => hv, fun p hp => absurd hp (List.not_mem_nil p)⟩)
    · rw [bfLoop]
      refine bfRound_marks _ _ _ _ _ _ _ _ _ _ h1 h2 h3 h4 hlen ?_
      intro nx ny nd v hf hvlen
      obtain ⟨hb1, hb2, hb3, hb4⟩ := findNext_bounds _ _ _ _ _ _ _ _ _ hf
      exact ⟨fun idx hv => bfLoop_visited_mono binary width height sx sy (f+1) nx ny nd v idx hv,
        ih (f + 1) (by omega) nx ny nd v hb1 hb2 hb3 hb4 hvlen⟩

/-- The head-freshness invariant carried through the double scan loop. -/
theorem traceContours_aux (binary : List ℕ) (width height : ℕ) :
    ∀ (cells : List (ℕ × ℕ)) (st : List Bool × List (List Pt)),
      (∀ yx ∈ cells, yx.2 < width ∧ yx.1 < height) →
      st.1.length = width * height →
      (∀ c ∈ st.2, ∀ p ∈ c, ∃ a b : ℤ, p = (⟨(a : ℚ), (b : ℚ)⟩ : Pt) ∧
        st.1.getD (b.toNat * width + a.toNat) false = true) →
      st.2.Pairwise (fun c₁ c₂ => ∀ p, c₂.head? = some p → p ∉ c₁) →
      (cells.foldl (traceCell binary width height) st).2.Pairwise
        (fun c₁ c₂ => ∀ p, c₂.head? = some p → p ∉ c₁) := by
  intro cells
  induction cells with
  | nil => intro st _ _ _ hpair; exact hpair
  | cons yx t ih =>
    intro st hcells hlen hmark hpair
    rw [List.foldl_cons]
    have hyx := hcells yx (List.mem_cons_self _ _)
    have hcells' : ∀ z ∈ t, z.2 < width ∧ z.1 < height :=
      fun z hz => hcells z (List.mem_cons_of_mem _ hz)
    by_cases hcond : (binary.getD (yx.1 * width + yx.2) 0 = 255 ∧
        st.1.getD (yx.1 * width + yx.2) false = false ∧
        hasBackgroundNeighbor binary width height yx.2 yx.1 = true)
    · have hstep : traceCell binary width height st yx =
          (if 10 ≤ (borderFollowing binary st.1 (yx.2 : ℤ) (yx.1 : ℤ) width height).1.length
           then ((borderFollowing binary st.1 (yx.2 : ℤ) (yx.1 : ℤ) width height).2,
             st.2 ++ [(borderFollowing binary st.1 (yx.2 : ℤ) (yx.1 : ℤ) width height).1])
           else ((borderFollowing binary st.1 (yx.2 : ℤ) (yx.1 : ℤ) width height).2, st.2)) := by
        simp only [traceCell]
        rw [if_pos hcond]
      rw [hstep]
      obtain ⟨hfg, hun, hedge⟩ := hcond
      have hx0 : (0 : ℤ) ≤ (yx.2 : ℤ) := Int.ofNat_nonneg _
      have hx1 : (yx.2 : ℤ) < (width : ℤ) := by exact_mod_cast hyx.1
      have hy0 : (0 : ℤ) ≤ (yx.1 : ℤ) := Int.ofNat_nonneg _
      have hy1 : (yx.1 : ℤ) < (height : ℤ) := by exact_mod_cast hyx.2
      have hmark' : ∀ c ∈ st.2, ∀ p ∈ c, ∃ a b : ℤ, p = (⟨(a : ℚ), (b : ℚ)⟩ : Pt) ∧
          (borderFollowing binary st.1 (yx.2 : ℤ) (yx.1 : ℤ) width height).2.getD
            (b.toNat * width + a.toNat) false = true := by
        intro c hc p hp
        obtain ⟨a, b, hpab, hm⟩ := hmark c hc p hp
        exact ⟨a, b, hpab, bfLoop_visited_mono _ _ _ _ _ _ _ _ _ _ _ hm⟩
      have hnewlen : (borderFollowing binary st.1 (yx.2 : ℤ) (yx.1 : ℤ) width height).2.length =
          width * height := by
        unfold borderFollowing
        rw [bfLoop_length]; exact hlen
      have hnewmark : ∀ p ∈ (borderFollowing binary st.1 (yx.2 : ℤ) (yx.1 : ℤ) width height).1,
          ∃ a b : ℤ, p = (⟨(a : ℚ), (b : ℚ)⟩ : Pt) ∧
            (borderFollowing binary st.1 (yx.2 : ℤ) (yx.1 : ℤ) width height).2.getD
              (b.toNat * width + a.toNat) false = true := by
        unfold borderFollowing
        exact bfLoop_marks binary width height _ _ _ _ _ _ _ hx0 hx1 hy0 hy1 hlen
      have hfresh : ∀ c' ∈ st.2, ∀ p,
          (borderFollowing binary st.1 (yx.2 : ℤ) (yx.1 : ℤ) width height).1.head? = some p →
          p ∉ c' := by
        intro c' hc' p hhead hpc
        unfold borderFollowing at hhead
        rw [bfLoop_head] at hhead
        have hp : p = (⟨((yx.2 : ℤ) : ℚ), ((yx.1 : ℤ) : ℚ)⟩ : Pt) := by
          simpa using hhead.symm
        obtain ⟨a, b, hpab, hm⟩ := hmark c' hc' p hpc
        rw [hp, Pt.mk.injEq] at hpab
        have hax : a = (yx.2 : ℤ) := by exact_mod_cast hpab.1.symm
        have hby : b = (yx.1 : ℤ) := by exact_mod_cast hpab.2.symm
        subst hax
        subst hby
        simp only [Int.toNat_ofNat] at hm
        rw [hm] at hun
        exact Bool.noConfusion hun
      split
      · -- contour kept: append it
        refine ih _ hcells' (by exact hnewlen) ?_ ?_
        · intro c hc p hp
          rcases List.mem_append.mp hc with hold | hnew
          · exact hmark' c hold p hp
          · have : c = (borderFollowing binary st.1 (yx.2 : ℤ) (yx.1 : ℤ) width height).1 := by
              simpa using hnew
            subst this
            exact hnewmark p hp
        · rw [List.pairwise_append]
          refine ⟨hpair, List.pairwise_singleton _ _, ?_⟩
          intro c' hc' c hnew
          have : c = (borderFollowing binary st.1 (yx.2 : ℤ) (yx.1 : ℤ) width height).1 := by
            simpa using hnew
          subst this
          intro p hhead
          exact hfresh c' hc' p hhead
      · -- contour dropped: only the visited mask advances
        refine ih _ hcells' (by exact hnewlen) ?_ hpair
        intro c hc p hp
        exact hmark' c hc p hp
    · have hstep : traceCell binary width height st yx = st := by
        simp only [traceCell]
        rw [if_neg hcond]
      rw [hstep]
      exact ih st hcells' hlen hmark hpair

/-- C7 (amended): in the contour list produced by `traceContours`, the first
pixel of each contour belongs to no earlier contour (the visited mask blocks
re-starting a trace on a visited pixel); full pixel-disjointness of distinct
contours does not hold, since the walk itself never consults the visited
mask — see the counterexample. -/
theorem traceContours_fresh_heads (binary : List ℕ) (width height : ℕ) :
    (traceContours binary width height).Pairwise
      (fun c₁ c₂ => ∀ p, c₂.head? = some p → p ∉ c₁) := by
  unfold traceContours
  apply traceContours_aux
  · intro yx hyx
    simp only [List.mem_flatMap, List.mem_map] at hyx
    obtain ⟨y, hy, x, hx, rfl⟩ := hyx
    have hy' := List.mem_range'_1.mp hy
    have hx' := List.mem_range'_1.mp hx
    exact ⟨by omega, by omega⟩
  · simp
  · simp
  · simp

/-- A 4×4 one-pixel-thick square ring with the pixel (1,3) removed, on a
6×6 image; foreground is 255. -/
def inkSample (x y : ℕ) : Bool :=
  (1 ≤ x ∧ x ≤ 4 ∧ 1 ≤ y ∧ y ≤ 4) ∧ (x = 1 ∨ x = 4 ∨ y = 1 ∨ y = 4) ∧
    ¬(x = 1 ∧ y = 3)

/-- The binary mask of the `inkSample` pattern on a 6×6 image. -/
def maskSample : List ℕ :=
  (List.range (6 * 6)).map fun i => if inkSample (i % 6) (i / 6) then 255 else 0

set_option maxHeartbeats 1000000 in
/-- C7 counterexample: on `maskSample` the extraction stage returns exactly
two contours and the pixel (2,1) belongs to both — the first trace, started
at (1,1), closes without visiting (1,2); the second trace starts there and
walks over the first contour. -/
theorem traceContours_shared_pixel :
    (traceContours maskSample 6 6).length = 2 ∧
    (⟨2, 1⟩ : Pt) ∈ (traceContours maskSample 6 6).getD 0 [] ∧
    (⟨2, 1⟩ : Pt) ∈ (traceContours maskSample 6 6).getD 1 [] := by
  decide

/-- A concrete grayscale field used to witness `binarization_spec`. -/
def graySample : List (Option ℚ) := [some 0, some 200, some 200, some 200]

unseal Rat.add Rat.mul Rat.inv Rat.sub Rat.ofScientific in
/-- Witness for C6 at a concrete grayscale field. -/
theorem binarization_spec_holds :
    graySample.get? 0 = some (some 0) ∧
    (((0.05 < otsuRa graySample 2 2 ∧ otsuRa graySample 2 2 < 0.50) →
      chosenThreshold graySample 2 2 = otsuThreshold graySample) ∧
    (¬(0.05 < otsuRa graySample 2 2 ∧ otsuRa graySample 2 2 < 0.50) →
      chosenThreshold graySample 2 2 = 128) ∧
    ((binarize graySample (chosenThreshold graySample 2 2)).get? 0 = some 255 ↔
      (0 : ℚ) < chosenThreshold graySample 2 2)) :=
  ⟨by decide, binarization_spec graySample 2 2 0 0 (by decide)⟩

/-! ## C8 development -/

/-- `List.getD` through an append, index inside the left list. -/
theorem getD_append_lt {α : Type _} (l l' : List α) (n : ℕ) (d : α) (h : n < l.length) :
    (l ++ l').getD n d = l.getD n d := by
  simp [List.getD_eq_getElem?_getD, List.getElem?_append_left h]

/-- `List.getD` through an append, index past the left list. -/
theorem getD_append_ge {α : Type _} (l l' : List α) (n : ℕ) (d : α) (h : l.length ≤ n) :
    (l ++ l').getD n d = l'.getD (n - l.length) d := by
  simp [List.getD_eq_getElem?_getD, List.getElem?_append_right h]

/-- An in-range `List.getD` read is a member of the list. -/
theorem getD_mem {α : Type _} (l : List α) (n : ℕ) (d : α) (h : n < l.length) :
    l.getD n d ∈ l := by
  simp only [List.getD_eq_getElem?_getD, List.getElem?_eq_getElem h, Option.getD_some]
  exact List.getElem_mem h

/-- The deviation of index `i` from the chord of span `(s, e)` — the distance
computed at source line 449. -/
def spanDist (sq : ℚ → ℚ) (points : List Pt) (s e i : ℕ) : ℚ :=
  perpendicularDistance sq (points.getD i ptD) (points.getD s ptD) (points.getD e ptD)

/-- The argmax fold of `rdpStep` over an arbitrary value function. -/
def maxScan (g : ℕ → ℚ) (s t : ℕ) : ℚ × ℕ :=
  (List.range' (s+1) t).foldl (fun md i => if g i > md.1 then (g i, i) else md) (0, s)

theorem rdpStep_eq (sq : ℚ → ℚ) (points : List Pt) (s e : ℕ) :
    rdpStep sq points s e = maxScan (spanDist sq points s e) s (e - (s+1)) := rfl

theorem maxScan_succ (g : ℕ → ℚ) (s t : ℕ) :
    maxScan g s (t+1) =
      if g (s+1+t) > (maxScan g s t).1 then (g (s+1+t), s+1+t) else maxScan g s t := by
  unfold maxScan
  rw [List.range'_concat, List.foldl_append]
  simp [Nat.add_assoc]

/-- Invariant of the argmax fold: the running maximum is non-negative, bounds
every scanned value, is either the untouched initial pair or attained at an
index inside the scanned range, and strictly exceeds every value scanned
before its index (first strict maximum wins). -/
theorem maxScan_spec (g : ℕ → ℚ) (s : ℕ) : ∀ t : ℕ,
    0 ≤ (maxScan g s t).1 ∧
    (∀ i, s+1 ≤ i → i < s+1+t → g i ≤ (maxScan g s t).1) ∧
    (maxScan g s t = (0, s) ∨
      (s+1 ≤ (maxScan g s t).2 ∧ (maxScan g s t).2 < s+1+t ∧
        g (maxScan g s t).2 = (maxScan g s t).1)) ∧
    (∀ i, s+1 ≤ i → i < (maxScan g s t).2 → g i < (maxScan g s t).1) := by
  intro t
  induction t with
  | zero =>
    refine ⟨le_refl 0, ?_, Or.inl rfl, ?_⟩
    · intro i h1 h2; omega
    · intro i h1 h2
      have hms : maxScan g s 0 = (0, s) := rfl
      rw [hms] at h2
      simp only at h2
      omega
  | succ t ih =>
    obtain ⟨h0, hub, hat, hfirst⟩ := ih
    rw [maxScan_succ]
    by_cases hgt : g (s+1+t) > (maxScan g s t).1
    · rw [if_pos hgt]
      dsimp only
      refine ⟨le_of_lt (lt_of_le_of_lt h0 hgt), ?_, Or.inr ⟨by omega, by omega, rfl⟩, ?_⟩
      · intro i h1 h2
        rcases Nat.lt_or_ge i (s+1+t) with hi | hi
        · exact le_of_lt (lt_of_le_of_lt (hub i h1 hi) hgt)
        · have hieq : i = s+1+t := by omega
          subst hieq; exact le_refl _
      · intro i h1 h2
        exact lt_of_le_of_lt (hub i h1 h2) hgt
    · rw [if_neg hgt]
      refine ⟨h0, ?_, ?_, hfirst⟩
      · intro i h1 h2
        rcases Nat.lt_or_ge i (s+1+t) with hi | hi
        · exact hub i h1 hi
        · have hieq : i = s+1+t := by omega
          subst hieq; exact le_of_not_lt hgt
      · rcases hat with h | ⟨ha, hb, hc⟩
        · exact Or.inl h
        · exact Or.inr ⟨ha, by omega, hc⟩

/-- The argmax fold is determined by its defining properties: if `p` is an
interior index achieving positive value `dm`, strictly exceeding everything
before it and at least everything in range, the fold returns `(dm, p)`. -/
theorem maxScan_unique (g : ℕ → ℚ) (s t p : ℕ) (dm : ℚ)
    (hp1 : s+1 ≤ p) (hp2 : p < s+1+t) (hgp : g p = dm) (hdm : 0 < dm)
    (hlt : ∀ i, s+1 ≤ i → i < p → g i < dm)
    (hle : ∀ i, s+1 ≤ i → i < s+1+t → g i ≤ dm) :
    maxScan g s t = (dm, p) := by
  obtain ⟨h0, hub, hat, hfirst⟩ := maxScan_spec g s t
  rcases hat with heq | ⟨ha1, ha2, ha3⟩
  · exfalso
    have hple := hub p hp1 hp2
    rw [heq, hgp] at hple
    simp only at hple
    exact absurd hdm (not_lt.mpr hple)
  · have hle1 : (maxScan g s t).1 ≤ dm := by
      rw [← ha3]; exact hle _ ha1 ha2
    have hge1 : dm ≤ (maxScan g s t).1 := by
      rw [← hgp]; exact hub p hp1 hp2
    have h1 : (maxScan g s t).1 = dm := le_antisymm hle1 hge1
    have h2 : (maxScan g s t).2 = p := by
      rcases Nat.lt_trichotomy (maxScan g s t).2 p with hc | hc | hc
      · have hx := hlt _ ha1 hc
        rw [ha3, h1] at hx
        exact absurd hx (lt_irrefl dm)
      · exact hc
      · have hx := hfirst p hp1 hc
        rw [hgp, h1] at hx
        exact absurd hx (lt_irrefl dm)
    calc maxScan g s t = ((maxScan g s t).1, (maxScan g s t).2) := rfl
      _ = (dm, p) := by rw [h1, h2]

theorem rdpStep_nonneg (sq : ℚ → ℚ) (points : List Pt) (s e : ℕ) :
    0 ≤ (rdpStep sq points s e).1 := by
  rw [rdpStep_eq]; exact (maxScan_spec _ _ _).1

theorem rdpStep_le (sq : ℚ → ℚ) (points : List Pt) (s e i : ℕ)
    (h1 : s+1 ≤ i) (h2 : i < e) :
    spanDist sq points s e i ≤ (rdpStep sq points s e).1 := by
  rw [rdpStep_eq]
  exact (maxScan_spec _ _ _).2.1 i h1 (by omega)

theorem rdpStep_first (sq : ℚ → ℚ) (points : List Pt) (s e i : ℕ)
    (h1 : s+1 ≤ i) (h2 : i < (rdpStep sq points s e).2) :
    spanDist sq points s e i < (rdpStep sq points s e).1 := by
  rw [rdpStep_eq] at h2 ⊢
  exact (maxScan_spec _ _ _).2.2.2 i h1 h2

theorem rdpStep_interior (sq : ℚ → ℚ) (points : List Pt) (s e : ℕ)
    (hpos : 0 < (rdpStep sq points s e).1) :
    s+1 ≤ (rdpStep sq points s e).2 ∧ (rdpStep sq points s e).2 < e ∧
      spanDist sq points s e (rdpStep sq points s e).2 = (rdpStep sq points s e).1 := by
  rw [rdpStep_eq] at hpos ⊢
  rcases (maxScan_spec (spanDist sq points s e) s (e - (s+1))).2.2.1 with heq | ⟨h1, h2, h3⟩
  · rw [heq] at hpos
    simp only at hpos
    exact absurd hpos (lt_irrefl 0)
  · exact ⟨h1, by omega, h3⟩

theorem rdpF_base (sq : ℚ → ℚ) (C : List Pt) (eps : ℚ) (f s e : ℕ)
    (hbase : e - s < 2) : rdpF sq C eps f s e = [C.getD s ptD] := by
  rcases f with _ | g
  · rw [rdpF]
  · rw [rdpF, if_pos hbase]

/-- One unfolding of `rdpF` in the splitting case. -/
theorem rdpF_split (sq : ℚ → ℚ) (C : List Pt) (eps : ℚ) (g s e : ℕ)
    (h2 : 2 ≤ e - s) (hgt : (rdpStep sq C s e).1 > eps) :
    rdpF sq C eps (g+1) s e =
      rdpF sq C eps g s (rdpStep sq C s e).2 ++ rdpF sq C eps g (rdpStep sq C s e).2 e := by
  rw [rdpF, if_neg (show ¬ (e - s < 2) by omega), if_pos hgt]

/-- One unfolding of `rdpF` in the collapsing case. -/
theorem rdpF_collapse (sq : ℚ → ℚ) (C : List Pt) (eps : ℚ) (g s e : ℕ)
    (hgt : ¬ (rdpStep sq C s e).1 > eps) :
    rdpF sq C eps (g+1) s e = [C.getD s ptD] := by
  rcases Nat.lt_or_ge (e - s) 2 with h | h
  · rw [rdpF, if_pos h]
  · rw [rdpF, if_neg (show ¬ (e - s < 2) by omega), if_neg hgt]

/-- Any fuel at least the span length computes the same `rdp` value (for a
non-negative tolerance the recursion always splits at an interior index, so
both sub-spans are strictly shorter). -/
theorem rdpF_fuel_congr (sq : ℚ → ℚ) (C : List Pt) (eps : ℚ) (heps : 0 ≤ eps) :
    ∀ (n s e f₁ f₂ : ℕ), e - s = n → e - s ≤ f₁ → e - s ≤ f₂ →
      rdpF sq C eps f₁ s e = rdpF sq C eps f₂ s e := by
  intro n
  induction n using Nat.strong_induction_on with
  | _ n ih =>
    intro s e f₁ f₂ hn h1 h2
    by_cases hbase : e - s < 2
    · rw [rdpF_base sq C eps f₁ s e hbase, rdpF_base sq C eps f₂ s e hbase]
    · push_neg at hbase
      obtain ⟨g₁, rfl⟩ : ∃ g, f₁ = g + 1 := ⟨f₁ - 1, by omega⟩
      obtain ⟨g₂, rfl⟩ : ∃ g, f₂ = g + 1 := ⟨f₂ - 1, by omega⟩
      by_cases hgt : (rdpStep sq C s e).1 > eps
      · have hpos : 0 < (rdpStep sq C s e).1 := lt_of_le_of_lt heps hgt
        obtain ⟨hm1, hm2, _⟩ := rdpStep_interior sq C s e hpos
        rw [rdpF_split sq C eps g₁ s e hbase hgt, rdpF_split sq C eps g₂ s e hbase hgt,
            ih ((rdpStep sq C s e).2 - s) (by omega) s (rdpStep sq C s e).2 g₁ g₂ rfl
              (by omega) (by omega),
            ih (e - (rdpStep sq C s e).2) (by omega) (rdpStep sq C s e).2 e g₁ g₂ rfl
              (by omega) (by omega)]
      · rw [rdpF_collapse sq C eps g₁ s e hgt, rdpF_collapse sq C eps g₂ s e hgt]

/-- Structure of an `rdp` result: it starts with the span's start point and
its remaining points are taken at indices strictly inside the span. -/
theorem rdpF_struct (sq : ℚ → ℚ) (C : List Pt) (eps : ℚ) (heps : 0 ≤ eps) :
    ∀ (n s e f : ℕ), e - s = n → e - s ≤ f →
      ∃ T, rdpF sq C eps f s e = C.getD s ptD :: T ∧
        ∀ q ∈ T, ∃ j, s < j ∧ j < e ∧ q = C.getD j ptD := by
  intro n
  induction n using Nat.strong_induction_on with
  | _ n ih =>
    intro s e f hn hf
    by_cases hbase : e - s < 2
    · exact ⟨[], by rw [rdpF_base sq C eps f s e hbase], by simp⟩
    · push_neg at hbase
      obtain ⟨g, rfl⟩ : ∃ g, f = g + 1 := ⟨f - 1, by omega⟩
      by_cases hgt : (rdpStep sq C s e).1 > eps
      · rw [rdpF_split sq C eps g s e hbase hgt]
        have hpos : 0 < (rdpStep sq C s e).1 := lt_of_le_of_lt heps hgt
        obtain ⟨hm1, hm2, _⟩ := rdpStep_interior sq C s e hpos
        obtain ⟨T₁, hL₁, hT₁⟩ := ih ((rdpStep sq C s e).2 - s) (by omega) s
          (rdpStep sq C s e).2 g rfl (by omega)
        obtain ⟨T₂, hL₂, hT₂⟩ := ih (e - (rdpStep sq C s e).2) (by omega)
          (rdpStep sq C s e).2 e g rfl (by omega)
        refine ⟨T₁ ++ C.getD (rdpStep sq C s e).2 ptD :: T₂, ?_, ?_⟩
        · rw [hL₁, hL₂, List.cons_append]
        · intro q hq
          rcases List.mem_append.mp hq with hq1 | hq2
          · obtain ⟨j, hj1, hj2, hj3⟩ := hT₁ q hq1
            exact ⟨j, hj1, by omega, hj3⟩
          · rcases List.mem_cons.mp hq2 with hq0 | hq3
            · exact ⟨(rdpStep sq C s e).2, by omega, hm2, hq0⟩
            · obtain ⟨j, hj1, hj2, hj3⟩ := hT₂ q hq3
              exact ⟨j, by omega, hj2, hj3⟩
      · rw [rdpF_collapse sq C eps g s e hgt]
        exact ⟨[], rfl, by simp⟩

/-- Re-running `rdp` on its own output (with the final chord point appended
after it) at any tolerance `eps' ≤ eps` changes nothing: every surviving
interior point deviates from its chord by the recorded maximum `> eps ≥ eps'`,
every discarded point deviates by at most that maximum, and the first-maximum
tie-breaking picks the same split index again. -/
theorem rdpF_rerun (sq : ℚ → ℚ) (C : List Pt) (eps eps' : ℚ)
    (heps : 0 ≤ eps) (heps' : eps' ≤ eps) :
    ∀ (n s e : ℕ), e - s = n →
    ∀ (Q : List Pt) (a fuel : ℕ),
      (∀ i, i ≤ (rdpF sq C eps (e - s) s e).length →
        Q.getD (a + i) ptD = (rdpF sq C eps (e - s) s e ++ [C.getD e ptD]).getD i ptD) →
      (rdpF sq C eps (e - s) s e).length ≤ fuel →
      rdpF sq Q eps' fuel a (a + (rdpF sq C eps (e - s) s e).length) =
        rdpF sq C eps (e - s) s e := by
  intro n
  induction n using Nat.strong_induction_on with
  | _ n ih =>
    intro s e hn Q a fuel hQ hfuel
    by_cases hbase : e - s < 2
    · rw [rdpF_base sq C eps (e - s) s e hbase] at hQ hfuel ⊢
      have h0 : Q.getD a ptD = C.getD s ptD := by simpa using hQ 0 (by simp)
      simp only [List.length_singleton] at hfuel ⊢
      rw [rdpF_base sq Q eps' fuel a (a+1) (by omega), h0]
    · push_neg at hbase
      obtain ⟨g, hg⟩ : ∃ g, e - s = g + 1 := ⟨e - s - 1, by omega⟩
      by_cases hgt : (rdpStep sq C s e).1 > eps
      case neg =>
        have hL : rdpF sq C eps (e - s) s e = [C.getD s ptD] := by
          rw [hg, rdpF_collapse sq C eps g s e hgt]
        rw [hL] at hQ hfuel ⊢
        have h0 : Q.getD a ptD = C.getD s ptD := by simpa using hQ 0 (by simp)
        simp only [List.length_singleton] at hfuel ⊢
        rw [rdpF_base sq Q eps' fuel a (a+1) (by omega), h0]
      case pos =>
        have hpos : 0 < (rdpStep sq C s e).1 := lt_of_le_of_lt heps hgt
        obtain ⟨hm1, hm2, hm3⟩ := rdpStep_interior sq C s e hpos
        have hL : rdpF sq C eps (e - s) s e =
            rdpF sq C eps ((rdpStep sq C s e).2 - s) s (rdpStep sq C s e).2 ++
            rdpF sq C eps (e - (rdpStep sq C s e).2) (rdpStep sq C s e).2 e := by
          rw [hg, rdpF_split sq C eps g s e hbase hgt,
              rdpF_fuel_congr sq C eps heps ((rdpStep sq C s e).2 - s) s
                (rdpStep sq C s e).2 g ((rdpStep sq C s e).2 - s) rfl (by omega) (le_refl _),
              rdpF_fuel_congr sq C eps heps (e - (rdpStep sq C s e).2)
                (rdpStep sq C s e).2 e g (e - (rdpStep sq C s e).2) rfl (by omega) (le_refl _)]
        obtain ⟨T₁, hL₁, hT₁⟩ := rdpF_struct sq C eps heps ((rdpStep sq C s e).2 - s) s
          (rdpStep sq C s e).2 ((rdpStep sq C s e).2 - s) rfl (le_refl _)
        obtain ⟨T₂, hL₂, hT₂⟩ := rdpF_struct sq C eps heps (e - (rdpStep sq C s e).2)
          (rdpStep sq C s e).2 e (e - (rdpStep sq C s e).2) rfl (le_refl _)
        set m := (rdpStep sq C s e).2 with hmdef
        set dm := (rdpStep sq C s e).1 with hdmdef
        set L₁ := rdpF sq C eps (m - s) s m with hL₁def
        set L₂ := rdpF sq C eps (e - m) m e with hL₂def
        have hlen1 : 1 ≤ L₁.length := by rw [hL₁]; simp
        have hlen2 : 1 ≤ L₂.length := by rw [hL₂]; simp
        rw [hL] at hQ hfuel ⊢
        set len := (L₁ ++ L₂).length with hlendef
        have hlen : len = L₁.length + L₂.length := by rw [hlendef, List.length_append]
        have hQ0 : Q.getD a ptD = C.getD s ptD := by
          have h := hQ 0 (by omega)
          rw [hL₁] at h
          simpa using h
        have hQlen : Q.getD (a + len) ptD = C.getD e ptD := by
          have h := hQ len (le_refl _)
          rw [getD_append_ge (L₁ ++ L₂) [C.getD e ptD] len ptD (le_of_eq hlendef.symm)] at h
          simpa [hlendef] using h
        have hQmid : ∀ i, i < len → Q.getD (a + i) ptD = (L₁ ++ L₂).getD i ptD := by
          intro i hi
          have h := hQ i (by omega)
          rwa [getD_append_lt (L₁ ++ L₂) [C.getD e ptD] i ptD (by rw [← hlendef]; exact hi)] at h
        have hQm : Q.getD (a + L₁.length) ptD = C.getD m ptD := by
          rw [hQmid L₁.length (by omega)]
          rw [getD_append_ge L₁ L₂ L₁.length ptD (le_refl _), Nat.sub_self, hL₂,
            List.getD_cons_zero]
        have hval : ∀ i, 1 ≤ i → i < len → ∃ j, s < j ∧ j < e ∧
            (L₁ ++ L₂).getD i ptD = C.getD j ptD ∧ (i < L₁.length → j < m) := by
          intro i h1 h2
          rcases Nat.lt_or_ge i L₁.length with hi₁ | hi₁
          · obtain ⟨i', rfl⟩ : ∃ i', i = i' + 1 := ⟨i - 1, by omega⟩
            have hmem : T₁.getD i' ptD ∈ T₁ := by
              apply getD_mem
              have hc : L₁.length = T₁.length + 1 := by rw [hL₁]; simp
              omega
            obtain ⟨j, hj1, hj2, hj3⟩ := hT₁ _ hmem
            refine ⟨j, hj1, by omega, ?_, fun _ => hj2⟩
            rw [getD_append_lt L₁ L₂ (i'+1) ptD hi₁, hL₁, List.getD_cons_succ]
            exact hj3
          · rcases Nat.eq_or_lt_of_le hi₁ with heq | hlt2
            · refine ⟨m, by omega, hm2, ?_, fun hcon => by omega⟩
              rw [getD_append_ge L₁ L₂ i ptD hi₁, ← heq, Nat.sub_self, hL₂,
                List.getD_cons_zero]
            · obtain ⟨i₂, hi₂⟩ : ∃ i₂, i - L₁.length = i₂ + 1 := ⟨i - L₁.length - 1, by omega⟩
              have hmem : T₂.getD i₂ ptD ∈ T₂ := by
                apply getD_mem
                have hc : L₂.length = T₂.length + 1 := by rw [hL₂]; simp
                omega
              obtain ⟨j, hj1, hj2, hj3⟩ := hT₂ _ hmem
              refine ⟨j, by omega, hj2, ?_, fun hcon => by omega⟩
              rw [getD_append_ge L₁ L₂ i ptD hi₁, hi₂, hL₂, List.getD_cons_succ]
              exact hj3
        have hstep : rdpStep sq Q a (a + len) = (dm, a + L₁.length) := by
          have harith : (a + len) - (a+1) = len - 1 := by omega
          rw [rdpStep_eq, harith]
          apply maxScan_unique
          · omega
          · omega
          · simp only [spanDist]
            rw [hQm, hQ0, hQlen]
            have h3 := hm3
            simp only [spanDist] at h3
            exact h3
          · exact hpos
          · intro i hi1 hi2
            obtain ⟨i', rfl⟩ : ∃ i', i = a + i' := ⟨i - a, by omega⟩
            have h2' : i' < L₁.length := by omega
            obtain ⟨j, hj1, hj2, hj3, hj4⟩ := hval i' (by omega) (by omega)
            have hjm : j < m := hj4 h2'
            have hfd := rdpStep_first sq C s e j (by omega) (hmdef ▸ hjm)
            rw [← hdmdef] at hfd
            have hv : Q.getD (a + i') ptD = C.getD j ptD := by
              rw [hQmid i' (by omega)]; exact hj3
            simp only [spanDist] at hfd ⊢
            rw [hv, hQ0, hQlen]
            exact hfd
          · intro i hi1 hi2
            obtain ⟨i', rfl⟩ : ∃ i', i = a + i' := ⟨i - a, by omega⟩
            have h2' : i' < len := by omega
            obtain ⟨j, hj1, hj2, hj3, _⟩ := hval i' (by omega) h2'
            have hfd := rdpStep_le sq C s e j (by omega) hj2
            rw [← hdmdef] at hfd
            have hv : Q.getD (a + i') ptD = C.getD j ptD := by
              rw [hQmid i' h2']; exact hj3
            simp only [spanDist] at hfd ⊢
            rw [hv, hQ0, hQlen]
            exact hfd
        obtain ⟨g', rfl⟩ : ∃ g', fuel = g' + 1 := ⟨fuel - 1, by omega⟩
        have hgt' : (rdpStep sq Q a (a + len)).1 > eps' := by
          rw [hstep]; exact lt_of_le_of_lt heps' hgt
        rw [rdpF_split sq Q eps' g' a (a + len) (by omega) hgt', hstep]
        dsimp only
        have hQ₁ : ∀ i, i ≤ (rdpF sq C eps (m - s) s m).length →
            Q.getD (a + i) ptD =
              (rdpF sq C eps (m - s) s m ++ [C.getD m ptD]).getD i ptD := by
          rw [← hL₁def]
          intro i hi
          rcases Nat.lt_or_ge i L₁.length with hi' | hi'
          · rw [hQmid i (by omega), getD_append_lt L₁ L₂ i ptD hi',
              getD_append_lt L₁ [C.getD m ptD] i ptD hi']
          · have hieq : i = L₁.length := by omega
            subst hieq
            rw [hQm, getD_append_ge L₁ [C.getD m ptD] L₁.length ptD (le_refl _),
              Nat.sub_self, List.getD_cons_zero]
        have hf₁ : (rdpF sq C eps (m - s) s m).length ≤ g' := by
          rw [← hL₁def]; omega
        have hIH₁ := ih (m - s) (by omega) s m rfl Q a g' hQ₁ hf₁
        rw [← hL₁def] at hIH₁
        have hQ₂ : ∀ i, i ≤ (rdpF sq C eps (e - m) m e).length →
            Q.getD (a + L₁.length + i) ptD =
              (rdpF sq C eps (e - m) m e ++ [C.getD e ptD]).getD i ptD := by
          rw [← hL₂def]
          intro i hi
          rcases Nat.lt_or_ge i L₂.length with hi' | hi'
          · have hidx : a + L₁.length + i = a + (L₁.length + i) := by omega
            rw [hidx, hQmid (L₁.length + i) (by omega),
              getD_append_ge L₁ L₂ (L₁.length + i) ptD (by omega),
              getD_append_lt L₂ [C.getD e ptD] i ptD hi']
            have hidx2 : L₁.length + i - L₁.length = i := by omega
            rw [hidx2]
          · have hieq : i = L₂.length := by omega
            subst hieq
            have harr : a + L₁.length + L₂.length = a + len := by omega
            rw [harr, hQlen, getD_append_ge L₂ [C.getD e ptD] L₂.length ptD (le_refl _),
              Nat.sub_self, List.getD_cons_zero]
        have hf₂ : (rdpF sq C eps (e - m) m e).length ≤ g' := by
          rw [← hL₂def]; omega
        have hIH₂ := ih (e - m) (by omega) m e rfl Q (a + L₁.length) g' hQ₂ hf₂
        rw [← hL₂def] at hIH₂
        have harr2 : a + L₁.length + L₂.length = a + len := by omega
        rw [harr2] at hIH₂
        rw [hIH₁, hIH₂]

/-- C8 (amended): whenever `approximatePolygon` actually keeps the simplified
polygon (the `< 3`-vertex fallback of source line 469 does not fire) and the
tolerance is non-negative, re-simplifying the output at any tolerance
`eps' ≤ eps` returns it unchanged; the fallback case refutes the unconditional
claim — see the counterexample. -/
theorem approximatePolygon_fixed_point (sq : ℚ → ℚ) (contour : List Pt) (eps eps' : ℚ)
    (heps : 0 ≤ eps) (heps' : eps' ≤ eps)
    (hkeep : approximatePolygon sq contour eps =
      rdp sq contour eps 0 (contour.length - 1) ++ [contour.getD (contour.length - 1) ptD]) :
    approximatePolygon sq (approximatePolygon sq contour eps) eps' =
      approximatePolygon sq contour eps := by
  rw [hkeep]
  set e := contour.length - 1 with hedef
  set L := rdp sq contour eps 0 e with hLdef
  by_cases hP : (L ++ [contour.getD e ptD]).length < 3
  · rw [approximatePolygon, if_pos hP]
  · have hP3 : 3 ≤ (L ++ [contour.getD e ptD]).length := by omega
    have hLdef' : L = rdpF sq contour eps (e - 0) 0 e := hLdef
    have hQP : ∀ i, i ≤ (rdpF sq contour eps (e - 0) 0 e).length →
        (L ++ [contour.getD e ptD]).getD (0 + i) ptD =
        (rdpF sq contour eps (e - 0) 0 e ++ [contour.getD e ptD]).getD i ptD := by
      rw [← hLdef']
      intro i _
      rw [Nat.zero_add]
    have hfP : (rdpF sq contour eps (e - 0) 0 e).length ≤ L.length := by
      rw [← hLdef']
    have hrerun := rdpF_rerun sq contour eps eps' heps heps' (e - 0) 0 e rfl
      (L ++ [contour.getD e ptD]) 0 L.length hQP hfP
    rw [← hLdef'] at hrerun
    rw [Nat.zero_add] at hrerun
    rw [approximatePolygon, if_neg hP]
    have hPlen : (L ++ [contour.getD e ptD]).length - 1 = L.length := by
      rw [List.length_append, List.length_singleton]
      omega
    have hPgetD : (L ++ [contour.getD e ptD]).getD
        ((L ++ [contour.getD e ptD]).length - 1) ptD = contour.getD e ptD := by
      rw [hPlen, getD_append_ge L [contour.getD e ptD] L.length ptD (le_refl _),
        Nat.sub_self, List.getD_cons_zero]
    have hPrdp : rdp sq (L ++ [contour.getD e ptD]) eps' 0
        ((L ++ [contour.getD e ptD]).length - 1) = L := by
      rw [hPlen, rdp, Nat.sub_zero]
      exact hrerun
    rw [hPrdp, hPgetD, if_pos hP3]

/-- A 5-point contour whose simplification at tolerance `2` collapses to 2
vertices, triggering the fallback of source line 469. -/
def cTest : List Pt := [⟨0, 0⟩, ⟨1, 1⟩, ⟨2, 0⟩, ⟨3, 0⟩, ⟨4, 0⟩]

unseal Rat.add Rat.mul Rat.inv Rat.sub Rat.ofScientific in
/-- Witness for C8 (amended) at a concrete contour: the simplification of
`cTest` at tolerance `1/2` keeps four vertices and is a fixed point at the
smaller tolerance `1/4`. -/
theorem approximatePolygon_fixed_point_holds :
    (0:ℚ) ≤ 1/2 ∧ (1/4:ℚ) ≤ 1/2 ∧
    approximatePolygon ratSqrt (approximatePolygon ratSqrt cTest (1/2)) (1/4) =
      approximatePolygon ratSqrt cTest (1/2) :=
  ⟨by decide, by decide,
    approximatePolygon_fixed_point ratSqrt cTest (1/2) (1/4) (by decide) (by decide)
      (by decide)⟩

unseal Rat.add Rat.mul Rat.inv Rat.sub Rat.ofScientific in
/-- C8 counterexample: at tolerance `2` the simplification of `cTest` keeps
only 2 vertices, so `approximatePolygon` falls back to the original 5-point
contour; re-simplifying that output at the smaller tolerance `1/2` removes
the collinear point `(3,0)` and returns a different polygon. -/
theorem approximatePolygon_not_fixed_point :
    (1/2 : ℚ) ≤ 2 ∧
    approximatePolygon ratSqrt (approximatePolygon ratSqrt cTest 2) (1/2) ≠
      approximatePolygon ratSqrt cTest 2 := by
  decide

/-! ## C9 development, part 1: the exact polar-order comparator -/

/-- The vector from `s` to `p`, as formed inside `hullLe`. -/
def relVec (s p : Pt) : Pt := ⟨p.x - s.x, p.y - s.y⟩

/-- Cross product of two vectors (based at the origin). -/
def vcross (u v : Pt) : ℚ := u.x * v.y - u.y * v.x

/-- Squared distance from `s` to `p`, as formed inside `hullLe`. -/
def sqDist (s p : Pt) : ℚ :=
  (p.x - s.x) * (p.x - s.x) + (p.y - s.y) * (p.y - s.y)

/-- `p` is not lexicographically (y, then x) below `s` — the defining property
of the start point picked at source lines 485–490. -/
def Above (s p : Pt) : Prop := s.y < p.y ∨ (s.y = p.y ∧ s.x ≤ p.x)

theorem crossProduct_eq_vcross (s a b : Pt) :
    crossProduct s a b = vcross (relVec s a) (relVec s b) := by
  unfold crossProduct vcross relVec
  ring

theorem vcross_swap (u v : Pt) : vcross v u = -vcross u v := by
  unfold vcross; ring

theorem hullLe_eq (s a b : Pt) :
    hullLe s a b = (if angleLt (relVec s a) (relVec s b) then true
      else if angleLt (relVec s b) (relVec s a) then false
      else decide (sqDist s a ≤ sqDist s b)) := rfl

theorem atan2Class_cases (y x : ℚ) :
    (atan2Class y x = 0 ∧ y < 0) ∨ (atan2Class y x = 1 ∧ y = 0 ∧ 0 ≤ x) ∨
    (atan2Class y x = 2 ∧ 0 < y) ∨ (atan2Class y x = 3 ∧ y = 0 ∧ x < 0) := by
  unfold atan2Class
  split_ifs with h1 h2 h3
  · exact Or.inl ⟨rfl, h1⟩
  · exact Or.inr (Or.inl ⟨rfl, h2⟩)
  · exact Or.inr (Or.inr (Or.inl ⟨rfl, h3⟩))
  · refine Or.inr (Or.inr (Or.inr ⟨rfl, ?_, ?_⟩))
    · linarith [not_lt.mp h1, not_lt.mp h3]
    · rcases not_and_or.mp h2 with h | h
      · exact absurd (by linarith [not_lt.mp h1, not_lt.mp h3]) h
      · exact not_le.mp h

theorem atan2Class_zero {y x : ℚ} (h : atan2Class y x = 0) : y < 0 := by
  rcases atan2Class_cases y x with ⟨h', hy⟩ | ⟨h', _⟩ | ⟨h', _⟩ | ⟨h', _⟩ <;>
    first | exact hy | omega

theorem atan2Class_one {y x : ℚ} (h : atan2Class y x = 1) : y = 0 ∧ 0 ≤ x := by
  rcases atan2Class_cases y x with ⟨h', _⟩ | ⟨h', hy⟩ | ⟨h', _⟩ | ⟨h', _⟩ <;>
    first | exact hy | omega

theorem atan2Class_two {y x : ℚ} (h : atan2Class y x = 2) : 0 < y := by
  rcases atan2Class_cases y x with ⟨h', _⟩ | ⟨h', _⟩ | ⟨h', hy⟩ | ⟨h', _⟩ <;>
    first | exact hy | omega

theorem atan2Class_three {y x : ℚ} (h : atan2Class y x = 3) : y = 0 ∧ x < 0 := by
  rcases atan2Class_cases y x with ⟨h', _⟩ | ⟨h', _⟩ | ⟨h', _⟩ | ⟨h', hy⟩ <;>
    first | exact hy | omega

theorem angleLt_iff (u v : Pt) :
    angleLt u v = true ↔
      (atan2Class u.y u.x < atan2Class v.y v.x) ∨
      (atan2Class u.y u.x = atan2Class v.y v.x ∧
        (atan2Class u.y u.x = 0 ∨ atan2Class u.y u.x = 2) ∧ 0 < vcross u v) := by
  simp only [angleLt, vcross]
  split_ifs with h
  · simp only [decide_eq_true_eq]
    constructor
    · intro hh; exact Or.inr ⟨h, hh.1, hh.2⟩
    · rintro (hlt | ⟨_, hc, hx⟩)
      · omega
      · exact ⟨hc, hx⟩
  · simp only [decide_eq_true_eq]
    constructor
    · intro hh; exact Or.inl hh
    · rintro (hlt | ⟨heq, _, _⟩)
      · exact hlt
      · exact absurd heq h

/-- The key algebraic identity behind transitivity of the polar order inside
an open half-plane. -/
theorem vcross_identity (u v w : Pt) :
    v.y * vcross u w = w.y * vcross u v + u.y * vcross v w := by
  unfold vcross; ring

/-- Transitivity of the cross-product order for three vectors whose
`y`-components share one (strict) sign. -/
theorem vcross_trans_gen {u v w : Pt}
    (huv : 0 < u.y * v.y) (hvw : 0 < v.y * w.y)
    (h1 : 0 ≤ vcross u v) (h2 : 0 ≤ vcross v w)
    (hpos : 0 < vcross u v ∨ 0 < vcross v w) : 0 < vcross u w := by
  have hvy0 : v.y ≠ 0 := by
    intro h
    rw [h, mul_zero] at huv
    exact lt_irrefl 0 huv
  have hvy : 0 < v.y * v.y := mul_self_pos.mpr hvy0
  have hkey : v.y * v.y * vcross u w = (v.y * w.y) * vcross u v + (u.y * v.y) * vcross v w := by
    unfold vcross; ring
  rcases hpos with hp | hp
  · nlinarith [mul_pos hvw hp, mul_nonneg (le_of_lt huv) h2]
  · nlinarith [mul_nonneg (le_of_lt hvw) h1, mul_pos huv hp]

/-- Degenerate version: cross-product equalities propagate. -/
theorem vcross_eq_trans_gen {u v w : Pt} (huv : 0 < u.y * v.y)
    (h1 : vcross u v = 0) (h2 : vcross v w = 0) : vcross u w = 0 := by
  have hvy : v.y ≠ 0 := by
    intro h
    rw [h, mul_zero] at huv
    exact lt_irrefl 0 huv
  have hid := vcross_identity u v w
  rw [h1, h2] at hid
  have : v.y * vcross u w = 0 := by rw [hid]; ring
  rcases mul_eq_zero.mp this with h | h
  · exact absurd h hvy
  · exact h

theorem angleLt_asymm {u v : Pt} (h1 : angleLt u v = true) (h2 : angleLt v u = true) :
    False := by
  rw [angleLt_iff] at h1 h2
  rcases h1 with hlt1 | ⟨he1, _, hx1⟩ <;> rcases h2 with hlt2 | ⟨he2, _, hx2⟩
  · omega
  · omega
  · omega
  · rw [vcross_swap] at hx2
    linarith

theorem angleLt_trans {u v w : Pt} (h1 : angleLt u v = true) (h2 : angleLt v w = true) :
    angleLt u w = true := by
  rw [angleLt_iff] at h1 h2 ⊢
  rcases h1 with hlt1 | ⟨he1, hc1, hx1⟩
  · rcases h2 with hlt2 | ⟨he2, _, _⟩
    · exact Or.inl (by omega)
    · exact Or.inl (by omega)
  · rcases h2 with hlt2 | ⟨he2, hc2, hx2⟩
    · exact Or.inl (by omega)
    · refine Or.inr ⟨by omega, hc1, ?_⟩
      rcases hc1 with hc | hc
      · have hyu := atan2Class_zero hc
        have hyv := atan2Class_zero (he1 ▸ hc)
        have hyw := atan2Class_zero (by omega : atan2Class w.y w.x = 0)
        exact vcross_trans_gen (mul_pos_of_neg_of_neg hyu hyv)
          (mul_pos_of_neg_of_neg hyv hyw) (le_of_lt hx1) (le_of_lt hx2) (Or.inl hx1)
      · have hyu := atan2Class_two hc
        have hyv := atan2Class_two (he1 ▸ hc)
        have hyw := atan2Class_two (by omega : atan2Class w.y w.x = 2)
        exact vcross_trans_gen (mul_pos hyu hyv) (mul_pos hyv hyw)
          (le_of_lt hx1) (le_of_lt hx2) (Or.inl hx1)

/-- Angle equality: neither vector has strictly smaller exact angle. -/
theorem angleEq_iff (u v : Pt) :
    (angleLt u v = false ∧ angleLt v u = false) ↔
      (atan2Class u.y u.x = atan2Class v.y v.x ∧
        ((atan2Class u.y u.x = 0 ∨ atan2Class u.y u.x = 2) → vcross u v = 0)) := by
  constructor
  · rintro ⟨h1, h2⟩
    rw [Bool.eq_false_iff] at h1 h2
    rw [Ne, angleLt_iff] at h1 h2
    push_neg at h1 h2
    have hcls : atan2Class u.y u.x = atan2Class v.y v.x := by omega
    refine ⟨hcls, fun hc => ?_⟩
    have hn1 : vcross u v ≤ 0 := h1.2 hcls hc
    have hn2 : vcross v u ≤ 0 := h2.2 hcls.symm (by omega)
    rw [vcross_swap] at hn2
    linarith
  · rintro ⟨hcls, hzero⟩
    constructor
    · rw [Bool.eq_false_iff, Ne, angleLt_iff]
      push_neg
      refine ⟨by omega, fun _ hc => ?_⟩
      exact le_of_eq (hzero hc)
    · rw [Bool.eq_false_iff, Ne, angleLt_iff]
      push_neg
      refine ⟨by omega, fun _ hc => ?_⟩
      have hvu : vcross v u = 0 := by rw [vcross_swap, hzero (by omega)]; ring
      exact le_of_eq hvu

theorem angleEq_lt_trans {u v w : Pt}
    (h1 : angleLt u v = false ∧ angleLt v u = false) (h2 : angleLt v w = true) :
    angleLt u w = true := by
  rw [angleEq_iff] at h1
  rw [angleLt_iff] at h2 ⊢
  obtain ⟨hcls, hzero⟩ := h1
  rcases h2 with hlt | ⟨he, hc, hx⟩
  · exact Or.inl (by omega)
  · refine Or.inr ⟨by omega, by omega, ?_⟩
    have hz : vcross u v = 0 := hzero (by omega)
    rcases hc with hc0 | hc2
    · have hyu := atan2Class_zero (by omega : atan2Class u.y u.x = 0)
      have hyv := atan2Class_zero (by omega : atan2Class v.y v.x = 0)
      have hyw := atan2Class_zero (by omega : atan2Class w.y w.x = 0)
      exact vcross_trans_gen (mul_pos_of_neg_of_neg hyu hyv)
        (mul_pos_of_neg_of_neg hyv hyw) (le_of_eq hz.symm) (le_of_lt hx) (Or.inr hx)
    · have hyu := atan2Class_two (by omega : atan2Class u.y u.x = 2)
      have hyv := atan2Class_two (by omega : atan2Class v.y v.x = 2)
      have hyw := atan2Class_two (by omega : atan2Class w.y w.x = 2)
      exact vcross_trans_gen (mul_pos hyu hyv) (mul_pos hyv hyw)
        (le_of_eq hz.symm) (le_of_lt hx) (Or.inr hx)

theorem angleLt_eq_trans {u v w : Pt}
    (h1 : angleLt u v = true) (h2 : angleLt v w = false ∧ angleLt w v = false) :
    angleLt u w = true := by
  rw [angleEq_iff] at h2
  rw [angleLt_iff] at h1 ⊢
  obtain ⟨hcls, hzero⟩ := h2
  rcases h1 with hlt | ⟨he, hc, hx⟩
  · exact Or.inl (by omega)
  · refine Or.inr ⟨by omega, hc, ?_⟩
    have hz : vcross v w = 0 := hzero (by omega)
    rcases hc with hc0 | hc2
    · have hyu := atan2Class_zero (by omega : atan2Class u.y u.x = 0)
      have hyv := atan2Class_zero (by omega : atan2Class v.y v.x = 0)
      have hyw := atan2Class_zero (by omega : atan2Class w.y w.x = 0)
      exact vcross_trans_gen (mul_pos_of_neg_of_neg hyu hyv)
        (mul_pos_of_neg_of_neg hyv hyw) (le_of_lt hx) (le_of_eq hz.symm) (Or.inl hx)
    · have hyu := atan2Class_two (by omega : atan2Class u.y u.x = 2)
      have hyv := atan2Class_two (by omega : atan2Class v.y v.x = 2)
      have hyw := atan2Class_two (by omega : atan2Class w.y w.x = 2)
      exact vcross_trans_gen (mul_pos hyu hyv) (mul_pos hyv hyw)
        (le_of_lt hx) (le_of_eq hz.symm) (Or.inl hx)

theorem angleEq_trans {u v w : Pt}
    (h1 : angleLt u v = false ∧ angleLt v u = false)
    (h2 : angleLt v w = false ∧ angleLt w v = false) :
    angleLt u w = false ∧ angleLt w u = false := by
  rw [angleEq_iff] at h1 h2 ⊢
  obtain ⟨hc1, hz1⟩ := h1
  obtain ⟨hc2, hz2⟩ := h2
  refine ⟨by omega, fun hc => ?_⟩
  have hzuv : vcross u v = 0 := hz1 hc
  have hzvw : vcross v w = 0 := hz2 (by omega)
  have hid := vcross_identity u v w
  have hyv : v.y ≠ 0 := by
    rcases hc with hc0 | hc2'
    · exact ne_of_lt (atan2Class_zero (hc1 ▸ hc0))
    · exact ne_of_gt (atan2Class_two (hc1 ▸ hc2'))
  have : v.y * vcross u w = 0 := by rw [hid, hzuv, hzvw]; ring
  rcases mul_eq_zero.mp this with h | h
  · exact absurd h hyv
  · exact h

theorem hullLe_total (s a b : Pt) : hullLe s a b = true ∨ hullLe s b a = true := by
  rw [hullLe_eq, hullLe_eq]
  by_cases h1 : angleLt (relVec s a) (relVec s b) = true
  · exact Or.inl (by rw [if_pos h1])
  · by_cases h2 : angleLt (relVec s b) (relVec s a) = true
    · exact Or.inr (by rw [if_pos h2])
    · rcases le_total (sqDist s a) (sqDist s b) with h | h
      · refine Or.inl ?_
        rw [if_neg h1, if_neg h2]
        simp [h]
      · refine Or.inr ?_
        rw [if_neg h2, if_neg h1]
        simp [h]

theorem hullLe_trans (s a b c : Pt) (h1 : hullLe s a b = true) (h2 : hullLe s b c = true) :
    hullLe s a c = true := by
  rw [hullLe_eq] at h1 h2 ⊢
  by_cases hab : angleLt (relVec s a) (relVec s b) = true
  · -- strict on the first step
    by_cases hbc : angleLt (relVec s b) (relVec s c) = true
    · rw [if_pos (angleLt_trans hab hbc)]
    · by_cases hcb : angleLt (relVec s c) (relVec s b) = true
      · rw [if_pos hcb, if_neg hbc] at h2
        exact absurd h2 (by simp)
      · rw [if_pos (angleLt_eq_trans hab ⟨Bool.eq_false_iff.mpr hbc, Bool.eq_false_iff.mpr hcb⟩)]
  · by_cases hba : angleLt (relVec s b) (relVec s a) = true
    · rw [if_pos hba, if_neg hab] at h1
      exact absurd h1 (by simp)
    · -- angle-equal first step
      have heq1 : angleLt (relVec s a) (relVec s b) = false ∧
          angleLt (relVec s b) (relVec s a) = false :=
        ⟨Bool.eq_false_iff.mpr hab, Bool.eq_false_iff.mpr hba⟩
      by_cases hbc : angleLt (relVec s b) (relVec s c) = true
      · rw [if_pos (angleEq_lt_trans heq1 hbc)]
      · by_cases hcb : angleLt (relVec s c) (relVec s b) = true
        · rw [if_pos hcb, if_neg hbc] at h2
          exact absurd h2 (by simp)
        · have heq2 : angleLt (relVec s b) (relVec s c) = false ∧
              angleLt (relVec s c) (relVec s b) = false :=
            ⟨Bool.eq_false_iff.mpr hbc, Bool.eq_false_iff.mpr hcb⟩
          have heq3 := angleEq_trans heq1 heq2
          rw [if_neg (Bool.eq_false_iff.mp heq3.1), if_neg (Bool.eq_false_iff.mp heq3.2)]
          rw [if_neg hab, if_neg hba] at h1
          rw [if_neg hbc, if_neg hcb] at h2
          simp only [decide_eq_true_eq] at h1 h2 ⊢
          exact le_trans h1 h2

/-! ## C9 development, part 2: geometry above the start point -/

theorem above_refl (s : Pt) : Above s s := Or.inr ⟨rfl, le_refl _⟩

theorem above_trans {a b c : Pt} (h1 : Above a b) (h2 : Above b c) : Above a c := by
  unfold Above at *
  rcases h1 with h1 | ⟨h1, h1x⟩ <;> rcases h2 with h2 | ⟨h2, h2x⟩
  · exact Or.inl (by linarith)
  · exact Or.inl (by linarith)
  · exact Or.inl (by linarith)
  · exact Or.inr ⟨by linarith, by linarith⟩

theorem above_class (s p : Pt) (h : Above s p) :
    (atan2Class (relVec s p).y (relVec s p).x = 1 ∧ p.y = s.y ∧ s.x ≤ p.x) ∨
    (atan2Class (relVec s p).y (relVec s p).x = 2 ∧ s.y < p.y) := by
  simp only [relVec]
  rcases h with h | ⟨h1, h2⟩
  · refine Or.inr ⟨?_, h⟩
    unfold atan2Class
    rw [if_neg (show ¬(p.y - s.y < 0) by linarith),
        if_neg (show ¬(p.y - s.y = 0 ∧ 0 ≤ p.x - s.x) from fun hh => by linarith [hh.1]),
        if_pos (show 0 < p.y - s.y by linarith)]
  · refine Or.inl ⟨?_, h1.symm, h2⟩
    unfold atan2Class
    rw [if_neg (show ¬(p.y - s.y < 0) by linarith),
        if_pos (show p.y - s.y = 0 ∧ 0 ≤ p.x - s.x from ⟨by linarith, by linarith⟩)]

/-- A sorted-order pair seen from the start point has non-negative cross
product: the polar angle only grows along the sorted list. -/
theorem cross_nonneg_of_hullLe (s a b : Pt) (ha : Above s a) (hb : Above s b)
    (h : hullLe s a b = true) : 0 ≤ crossProduct s a b := by
  rw [crossProduct_eq_vcross]
  rw [hullLe_eq] at h
  rcases above_class s a ha with ⟨ca1, hay, hax⟩ | ⟨ca2, hay⟩ <;>
    rcases above_class s b hb with ⟨cb1, hby, hbx⟩ | ⟨cb2, hby⟩
  · simp only [vcross, relVec]
    rw [hay, hby]
    simp
  · simp only [vcross, relVec]
    rw [hay]
    nlinarith [mul_nonneg (sub_nonneg.mpr hax) (sub_nonneg.mpr (le_of_lt hby))]
  · exfalso
    have hlt : angleLt (relVec s b) (relVec s a) = true := by
      rw [angleLt_iff]
      exact Or.inl (by omega)
    have hnlt : ¬ angleLt (relVec s a) (relVec s b) = true := by
      intro hh
      rw [angleLt_iff] at hh
      rcases hh with hl | ⟨he, _, _⟩
      · omega
      · omega
    rw [if_neg hnlt, if_pos hlt] at h
    exact absurd h (by simp)
  · by_cases hab : angleLt (relVec s a) (relVec s b) = true
    · rw [angleLt_iff] at hab
      rcases hab with hl | ⟨_, _, hx⟩
      · omega
      · exact le_of_lt hx
    · by_cases hba : angleLt (relVec s b) (relVec s a) = true
      · rw [if_neg hab, if_pos hba] at h
        exact absurd h (by simp)
      · have heq := (angleEq_iff _ _).mp ⟨Bool.eq_false_iff.mpr hab, Bool.eq_false_iff.mpr hba⟩
        exact le_of_eq (heq.2 (Or.inr ca2)).symm

/-- A sorted-order pair with zero cross product lies on one ray from the start
point, with the earlier point no farther than the later one. -/
theorem ray_of_hullLe (s a b : Pt) (ha : Above s a) (hb : Above s b)
    (h : hullLe s a b = true) (hc : vcross (relVec s a) (relVec s b) = 0) :
    (relVec s a = (⟨0, 0⟩ : Pt)) ∨
    ∃ t : ℚ, 0 < t ∧ t ≤ 1 ∧ (relVec s a).x = t * (relVec s b).x ∧
      (relVec s a).y = t * (relVec s b).y := by
  rw [hullLe_eq] at h
  rcases above_class s a ha with ⟨ca1, hay, hax⟩ | ⟨ca2, hay⟩ <;>
    rcases above_class s b hb with ⟨cb1, hby, hbx⟩ | ⟨cb2, hby⟩
  · -- both on the non-negative x-ray
    have hnlt1 : ¬ angleLt (relVec s a) (relVec s b) = true := by
      intro hh
      rw [angleLt_iff] at hh
      rcases hh with hl | ⟨_, hcl, _⟩ <;> omega
    have hnlt2 : ¬ angleLt (relVec s b) (relVec s a) = true := by
      intro hh
      rw [angleLt_iff] at hh
      rcases hh with hl | ⟨_, hcl, _⟩ <;> omega
    rw [if_neg hnlt1, if_neg hnlt2] at h
    simp only [decide_eq_true_eq] at h
    unfold sqDist at h
    by_cases hx0 : a.x - s.x = 0
    · refine Or.inl ?_
      simp only [relVec, Pt.mk.injEq]
      exact ⟨hx0, by linarith⟩
    · have hxa : 0 < a.x - s.x := lt_of_le_of_ne (by linarith) (Ne.symm hx0)
      have hxb : a.x - s.x ≤ b.x - s.x := by nlinarith [sq_nonneg (a.y - s.y), sq_nonneg (b.y - s.y)]
      have hxbpos : 0 < b.x - s.x := lt_of_lt_of_le hxa hxb
      refine Or.inr ⟨(a.x - s.x) / (b.x - s.x), div_pos hxa hxbpos, ?_, ?_, ?_⟩
      · rw [div_le_one hxbpos]
        exact hxb
      · simp only [relVec]
        field_simp
      · simp only [relVec]
        rw [show a.y - s.y = 0 by linarith, show b.y - s.y = 0 by linarith]
        ring
  · -- a on the x-ray, b strictly above: the cross forces a = s
    refine Or.inl ?_
    simp only [vcross, relVec] at hc
    simp only [relVec, Pt.mk.injEq]
    constructor
    · have hy0 : (a.y - s.y) * (b.x - s.x) = 0 := by
        rw [show a.y - s.y = 0 by linarith]
        ring
      have hzero : (a.x - s.x) * (b.y - s.y) = 0 := by linarith [hc, hy0]
      rcases mul_eq_zero.mp hzero with h0 | h0
      · exact h0
      · linarith
    · linarith
  · -- impossible ordering
    exfalso
    have hlt : angleLt (relVec s b) (relVec s a) = true := by
      rw [angleLt_iff]
      exact Or.inl (by omega)
    have hnlt : ¬ angleLt (relVec s a) (relVec s b) = true := by
      intro hh
      rw [angleLt_iff] at hh
      rcases hh with hl | ⟨he, _, _⟩ <;> omega
    rw [if_neg hnlt, if_pos hlt] at h
    exact absurd h (by simp)
  · -- both strictly above: one ray, distances compare
    have hya : 0 < a.y - s.y := by linarith
    have hyb : 0 < b.y - s.y := by linarith
    have hnlt1 : ¬ angleLt (relVec s a) (relVec s b) = true := by
      intro hh
      rw [angleLt_iff] at hh
      rcases hh with hl | ⟨_, _, hx⟩
      · omega
      · simp only [relVec] at hx hc
        linarith
    have hnlt2 : ¬ angleLt (relVec s b) (relVec s a) = true := by
      intro hh
      rw [angleLt_iff] at hh
      rcases hh with hl | ⟨_, _, hx⟩
      · omega
      · rw [vcross_swap] at hx
        simp only [relVec] at hx hc
        linarith
    rw [if_neg hnlt1, if_neg hnlt2] at h
    simp only [decide_eq_true_eq] at h
    unfold sqDist at h
    simp only [vcross, relVec] at hc
    refine Or.inr ⟨(a.y - s.y) / (b.y - s.y), div_pos hya hyb, ?_, ?_, ?_⟩
    · rw [div_le_one hyb]
      by_contra hcon
      push_neg at hcon
      have h2 : (b.y - s.y) * (b.y - s.y) *
            ((a.x - s.x) * (a.x - s.x) + (a.y - s.y) * (a.y - s.y)) ≤
          (b.y - s.y) * (b.y - s.y) *
            ((b.x - s.x) * (b.x - s.x) + (b.y - s.y) * (b.y - s.y)) :=
        mul_le_mul_of_nonneg_left h (mul_nonneg (le_of_lt hyb) (le_of_lt hyb))
      have hE : (a.x - s.x) * (b.y - s.y) = (a.y - s.y) * (b.x - s.x) := by linarith [hc]
      have h3 : ((a.x - s.x) * (b.y - s.y)) * ((a.x - s.x) * (b.y - s.y)) =
          ((a.y - s.y) * (b.x - s.x)) * ((a.y - s.y) * (b.x - s.x)) := by rw [hE]
      nlinarith [h2, h3, mul_pos (sub_pos.mpr hcon)
        (show 0 < (a.y - s.y) + (b.y - s.y) by linarith), sq_nonneg (b.x - s.x)]
    · simp only [relVec]
      rw [div_mul_eq_mul_div, eq_div_iff (ne_of_gt hyb)]
      linarith [hc]
    · simp only [relVec]
      field_simp

/-- The start-point fold of source lines 485–490. -/
def startPt (points : List Pt) : Pt :=
  points.foldl
    (fun s p => if p.y < s.y ∨ (p.y = s.y ∧ p.x < s.x) then p else s)
    (points.getD 0 ptD)

theorem foldl_start_mem (l : List Pt) (init : Pt) :
    l.foldl (fun s p => if p.y < s.y ∨ (p.y = s.y ∧ p.x < s.x) then p else s) init = init ∨
    l.foldl (fun s p => if p.y < s.y ∨ (p.y = s.y ∧ p.x < s.x) then p else s) init ∈ l := by
  induction l generalizing init with
  | nil => exact Or.inl rfl
  | cons q l ih =>
    simp only [List.foldl_cons]
    rcases ih (if q.y < init.y ∨ (q.y = init.y ∧ q.x < init.x) then q else init) with h | h
    · rw [h]
      split_ifs with hc
      · exact Or.inr (List.mem_cons_self _ _)
      · exact Or.inl rfl
    · exact Or.inr (List.mem_cons_of_mem _ h)

theorem foldl_start_min (l : List Pt) (init : Pt) :
    Above (l.foldl (fun s p => if p.y < s.y ∨ (p.y = s.y ∧ p.x < s.x) then p else s) init)
      init ∧
    ∀ p ∈ l,
      Above (l.foldl (fun s p => if p.y < s.y ∨ (p.y = s.y ∧ p.x < s.x) then p else s) init)
        p := by
  induction l generalizing init with
  | nil => exact ⟨above_refl init, by simp⟩
  | cons q l ih =>
    simp only [List.foldl_cons]
    obtain ⟨h1, h2⟩ := ih (if q.y < init.y ∨ (q.y = init.y ∧ q.x < init.x) then q else init)
    have hstep : Above (if q.y < init.y ∨ (q.y = init.y ∧ q.x < init.x) then q else init) init ∧
        Above (if q.y < init.y ∨ (q.y = init.y ∧ q.x < init.x) then q else init) q := by
      split_ifs with hc
      · refine ⟨?_, above_refl q⟩
        rcases hc with hc | ⟨hc1, hc2⟩
        · exact Or.inl hc
        · exact Or.inr ⟨hc1, le_of_lt hc2⟩
      · refine ⟨above_refl init, ?_⟩
        push_neg at hc
        rcases lt_or_eq_of_le hc.1 with hlt | heq
        · exact Or.inl hlt
        · exact Or.inr ⟨heq, hc.2 heq.symm⟩
    refine ⟨above_trans h1 hstep.1, ?_⟩
    intro p hp
    rcases List.mem_cons.mp hp with rfl | hp
    · exact above_trans h1 hstep.2
    · exact h2 p hp

theorem startPt_mem (points : List Pt) (h : points ≠ []) : startPt points ∈ points := by
  unfold startPt
  rcases foldl_start_mem points (points.getD 0 ptD) with heq | hmem
  · rw [heq]
    apply getD_mem
    exact List.length_pos.mpr h
  · exact hmem

theorem startPt_min (points : List Pt) : ∀ p ∈ points, Above (startPt points) p :=
  (foldl_start_min points (points.getD 0 ptD)).2

/-! ## C9 development, part 3: the pop lemma -/

/-- A `Pt` as a vector of `ℚ × ℚ`. -/
def toVec (p : Pt) : ℚ × ℚ := (p.x, p.y)

theorem convex_combo3 {S : Set (ℚ × ℚ)} (hS : Convex ℚ S) {x y z : ℚ × ℚ}
    (hx : x ∈ S) (hy : y ∈ S) (hz : z ∈ S) {α β γ : ℚ}
    (hα : 0 ≤ α) (hβ : 0 ≤ β) (hγ : 0 ≤ γ) (hsum : α + β + γ = 1) :
    α • x + (β • y + γ • z) ∈ S := by
  by_cases hβγ : β + γ = 0
  · have hβ0 : β = 0 := by linarith
    have hγ0 : γ = 0 := by linarith
    have hα1 : α = 1 := by linarith
    rw [hβ0, hγ0, hα1, one_smul, zero_smul, zero_smul, add_zero, add_zero]
    exact hx
  · have hpos : 0 < β + γ := lt_of_le_of_ne (by linarith) (Ne.symm hβγ)
    have hm := hS hy hz (div_nonneg hβ (le_of_lt hpos)) (div_nonneg hγ (le_of_lt hpos))
      (by field_simp)
    have hfinal := hS hx hm hα (le_of_lt hpos) (by linarith)
    have h1 : (β + γ) • ((β / (β + γ)) • y + (γ / (β + γ)) • z) = β • y + γ • z := by
      rw [smul_add, smul_smul, smul_smul]
      congr 1
      · congr 1
        field_simp
      · congr 1
        field_simp
    rw [h1] at hfinal
    exact hfinal

theorem crossProduct_rev23 (a b p : Pt) : crossProduct a p b = -crossProduct a b p := by
  unfold crossProduct; ring

/-- The triangle decomposition identity for signed areas. -/
theorem crossProduct_decomp (s a p b : Pt) :
    crossProduct a p b + crossProduct s b p + crossProduct s a b = crossProduct s a p := by
  unfold crossProduct; ring

/-- The pop lemma: if `a`, `b`, `p` follow the start point `s` in sorted polar
order and `b` fails the left-turn test of the sweep (source line 505), then
`b` lies in every convex set containing `s`, `a` and `p`. -/
theorem pop_mem_convex (s a b p : Pt)
    (ha : Above s a) (hb : Above s b) (hp : Above s p)
    (hab : hullLe s a b = true) (hbp : hullLe s b p = true)
    (hpop : crossProduct a b p ≤ 0) :
    ∀ S : Set (ℚ × ℚ), Convex ℚ S →
      toVec s ∈ S → toVec a ∈ S → toVec p ∈ S → toVec b ∈ S := by
  intro S hS hs ha' hp'
  have hcp : 0 ≤ crossProduct s a b := cross_nonneg_of_hullLe s a b ha hb hab
  have hca : 0 ≤ crossProduct s b p := cross_nonneg_of_hullLe s b p hb hp hbp
  have hcs : 0 ≤ crossProduct a p b := by
    rw [crossProduct_rev23]
    linarith
  have hsum := crossProduct_decomp s a p b
  have hTnn : 0 ≤ crossProduct s a p := by linarith
  rcases eq_or_lt_of_le hTnn with hT0 | hTpos
  · -- degenerate: everything on one ray through s
    have h1 : crossProduct s a b = 0 := by linarith
    have h2 : crossProduct s b p = 0 := by linarith
    rcases ray_of_hullLe s b p hb hp hbp
        (by rw [← crossProduct_eq_vcross]; exact h2) with hb0 | ⟨t₂, ht₂0, ht₂1, hbx, hby⟩
    · -- b = s
      have hbs : toVec b = toVec s := by
        simp only [relVec, Pt.mk.injEq] at hb0
        unfold toVec
        rw [Prod.mk.injEq]
        exact ⟨by linarith [hb0.1], by linarith [hb0.2]⟩
      rw [hbs]
      exact hs
    · simp only [relVec] at hbx hby
      rcases ray_of_hullLe s a b ha hb hab
          (by rw [← crossProduct_eq_vcross]; exact h1) with ha0 | ⟨t₁, ht₁0, ht₁1, hax, hay⟩
      · -- a = s: b lies on the segment from s to p
        have hcomb : toVec b = (1 - t₂) • toVec s + t₂ • toVec p := by
          unfold toVec
          simp only [Prod.smul_mk, Prod.mk_add_mk, Prod.mk.injEq, smul_eq_mul]
          constructor
          · linear_combination hbx
          · linear_combination hby
        rw [hcomb]
        exact hS hs hp' (by linarith) (by linarith) (by ring)
      · simp only [relVec] at hax hay
        -- a, b, p on one ray: b lies on the segment from a to p
        by_cases hdeg : 1 - t₁ * t₂ = 0
        · -- then t₁ = t₂ = 1 and b = a
          have h11 : t₁ * t₂ = 1 := by linarith
          have ht₁ : t₁ = 1 := by
            have h1le : 1 ≤ t₁ := by
              nlinarith [mul_le_mul_of_nonneg_left ht₂1 (le_of_lt ht₁0), h11]
            linarith
          have hba : toVec b = toVec a := by
            unfold toVec
            rw [Prod.mk.injEq]
            rw [ht₁] at hax hay
            constructor
            · linear_combination -hax
            · linear_combination -hay
          rw [hba]
          exact ha'
        · have hdpos : 0 < 1 - t₁ * t₂ := by
            have hle : t₁ * t₂ ≤ 1 := by
              nlinarith [mul_le_mul_of_nonneg_left ht₂1 (le_of_lt ht₁0)]
            exact lt_of_le_of_ne (by linarith) (Ne.symm hdeg)
          have hlamle : (1 - t₂) / (1 - t₁ * t₂) ≤ 1 := by
            rw [div_le_one hdpos]
            nlinarith [mul_le_mul_of_nonneg_right ht₁1 (le_of_lt ht₂0)]
          have hlamnn : 0 ≤ (1 - t₂) / (1 - t₁ * t₂) :=
            div_nonneg (by linarith) (le_of_lt hdpos)
          have hDx : (1 - t₁ * t₂) * b.x = (1 - t₂) * a.x + (t₂ - t₁ * t₂) * p.x := by
            linear_combination (-(1 - t₂)) * hax + (1 - t₁) * hbx
          have hDy : (1 - t₁ * t₂) * b.y = (1 - t₂) * a.y + (t₂ - t₁ * t₂) * p.y := by
            linear_combination (-(1 - t₂)) * hay + (1 - t₁) * hby
          have hcomb : toVec b = ((1 - t₂) / (1 - t₁ * t₂)) • toVec a +
              (1 - (1 - t₂) / (1 - t₁ * t₂)) • toVec p := by
            unfold toVec
            simp only [Prod.smul_mk, Prod.mk_add_mk, Prod.mk.injEq, smul_eq_mul]
            have hD : (1 : ℚ) - t₁ * t₂ ≠ 0 := hdeg
            constructor
            · field_simp
              linear_combination hDx
            · field_simp
              linear_combination hDy
          rw [hcomb]
          exact hS ha' hp' hlamnn (by linarith) (by ring)
  · -- proper triangle: barycentric combination
    have hT0 : crossProduct s a p ≠ 0 := ne_of_gt hTpos
    have hcomb : toVec b = (crossProduct a p b / crossProduct s a p) • toVec s +
        ((crossProduct s b p / crossProduct s a p) • toVec a +
          (crossProduct s a b / crossProduct s a p) • toVec p) := by
      have hx : b.x * crossProduct s a p = crossProduct a p b * s.x +
          crossProduct s b p * a.x + crossProduct s a b * p.x := by
        unfold crossProduct; ring
      have hy : b.y * crossProduct s a p = crossProduct a p b * s.y +
          crossProduct s b p * a.y + crossProduct s a b * p.y := by
        unfold crossProduct; ring
      unfold toVec
      simp only [Prod.smul_mk, Prod.mk_add_mk, Prod.mk.injEq, smul_eq_mul]
      constructor
      · field_simp
        linear_combination hx
      · field_simp
        linear_combination hy
    rw [hcomb]
    exact convex_combo3 hS hs ha' hp'
      (div_nonneg hcs (le_of_lt hTpos))
      (div_nonneg hca (le_of_lt hTpos))
      (div_nonneg hcp (le_of_lt hTpos))
      (by field_simp; linear_combination hsum)

/-! ## C9 development, part 4: the Graham sweep -/

/-- The stack (top first) makes only strict left turns going up. -/
def stackTurns : List Pt → Prop
  | c :: b :: a :: rest => crossProduct a b c > 0 ∧ stackTurns (b :: a :: rest)
  | _ => True

theorem stackTurns_tail {l : List Pt} {x : Pt} (h : stackTurns (x :: l)) : stackTurns l := by
  match l with
  | [] => exact trivial
  | [y] => exact trivial
  | y :: z :: t => exact h.2

theorem hullSweep_pop (a b p : Pt) (rest : List Pt) (h : crossProduct a b p ≤ 0) :
    hullSweep (b :: a :: rest) p = hullSweep (a :: rest) p := by
  show (if crossProduct a b p ≤ 0 then hullSweep (a :: rest) p else p :: b :: a :: rest) =
    hullSweep (a :: rest) p
  rw [if_pos h]

theorem hullSweep_push (a b p : Pt) (rest : List Pt) (h : ¬ crossProduct a b p ≤ 0) :
    hullSweep (b :: a :: rest) p = p :: b :: a :: rest := by
  show (if crossProduct a b p ≤ 0 then hullSweep (a :: rest) p else p :: b :: a :: rest) =
    p :: b :: a :: rest
  rw [if_neg h]

theorem getLast?_of_suffix {l₁ l₂ : List Pt} (h : l₁ <:+ l₂) (hne : l₁ ≠ []) :
    l₂.getLast? = l₁.getLast? := by
  obtain ⟨pre, rfl⟩ := h
  rw [List.getLast?_append]
  cases hl : l₁.getLast? with
  | none => exact absurd (List.getLast?_eq_none_iff.mp hl) hne
  | some y => rfl

/-- One sweep step: the new point is pushed onto a suffix of the old stack,
turns stay strictly left, and every dropped point lies in any convex set
containing the surviving stack and the new point. -/
theorem hullSweep_spec (s p : Pt) (hp : Above s p) :
    ∀ st : List Pt, st ≠ [] →
      st.getLast? = some s →
      (∀ x ∈ st, Above s x) →
      (∀ x ∈ st, hullLe s x p = true) →
      st.Pairwise (fun a b => hullLe s b a = true) →
      stackTurns st →
      ∃ st', hullSweep st p = p :: st' ∧ st' <:+ st ∧ st' ≠ [] ∧
        stackTurns (p :: st') ∧
        ∀ S : Set (ℚ × ℚ), Convex ℚ S → (∀ x ∈ p :: st', toVec x ∈ S) →
          ∀ q ∈ st, toVec q ∈ S := by
  intro st
  induction st with
  | nil => intro hne; exact absurd rfl hne
  | cons b t ih =>
    intro _ hlast habove horder hpair hturns
    cases t with
    | nil =>
      refine ⟨[b], rfl, List.suffix_refl _, by simp, trivial, ?_⟩
      intro S hS hmem q hq
      rcases List.mem_cons.mp hq with rfl | hq
      · exact hmem q (by simp)
      · simp at hq
    | cons a rest =>
      by_cases hcross : crossProduct a b p ≤ 0
      · rw [hullSweep_pop a b p rest hcross]
        obtain ⟨st', heq, hsuf, hne', hturns', hcont⟩ :=
          ih (by simp) (List.getLast?_cons_cons.symm.trans hlast)
            (fun x hx => habove x (List.mem_cons_of_mem b hx))
            (fun x hx => horder x (List.mem_cons_of_mem b hx))
            hpair.of_cons (stackTurns_tail hturns)
        refine ⟨st', heq, hsuf.trans (List.suffix_cons b (a :: rest)), hne', hturns', ?_⟩
        intro S hS hmem q hq
        rcases List.mem_cons.mp hq with rfl | hq
        · -- the popped point
          have hab : hullLe s a q = true :=
            List.rel_of_pairwise_cons hpair (List.mem_cons_self a rest)
          have hbp : hullLe s q p = true := horder q (List.mem_cons_self q (a :: rest))
          have hlastst' : st'.getLast? = some s := by
            rw [← getLast?_of_suffix hsuf hne']
            exact List.getLast?_cons_cons.symm.trans hlast
          have hsS : toVec s ∈ S :=
            hmem s (List.mem_cons_of_mem p (List.mem_of_getLast?_eq_some hlastst'))
          have haS : toVec a ∈ S := hcont S hS hmem a (List.mem_cons_self a rest)
          have hpS : toVec p ∈ S := hmem p (List.mem_cons_self p st')
          exact pop_mem_convex s a q p (habove a (by simp)) (habove q (by simp)) hp
            hab hbp hcross S hS hsS haS hpS
        · exact hcont S hS hmem q hq
      · rw [hullSweep_push a b p rest hcross]
        refine ⟨b :: a :: rest, rfl, List.suffix_refl _, by simp, ⟨not_le.mp hcross, hturns⟩, ?_⟩
        intro S hS hmem q hq
        exact hmem q (List.mem_cons_of_mem p hq)

/-- The sweep fold: all invariants of `hullSweep_spec` propagate along the
sorted tail, and at the end every processed point lies in any convex set
containing the final stack. -/
theorem sweep_foldl_spec (s : Pt) :
    ∀ (suf : List Pt) (st : List Pt),
      2 ≤ st.length →
      st.getLast? = some s →
      (∀ x ∈ st, Above s x) →
      (∀ x ∈ suf, Above s x) →
      (∀ x ∈ st, ∀ q ∈ suf, hullLe s x q = true) →
      suf.Pairwise (fun a b => hullLe s a b = true) →
      st.Pairwise (fun a b => hullLe s b a = true) →
      stackTurns st →
      2 ≤ (suf.foldl hullSweep st).length ∧
      (suf.foldl hullSweep st).getLast? = some s ∧
      (∀ x ∈ suf.foldl hullSweep st, Above s x) ∧
      (suf.foldl hullSweep st).Pairwise (fun a b => hullLe s b a = true) ∧
      stackTurns (suf.foldl hullSweep st) ∧
      ∀ S : Set (ℚ × ℚ), Convex ℚ S →
        (∀ x ∈ suf.foldl hullSweep st, toVec x ∈ S) →
        (∀ q ∈ st, toVec q ∈ S) ∧ ∀ q ∈ suf, toVec q ∈ S := by
  intro suf
  induction suf with
  | nil =>
    intro st hlen2 hlast habove _ _ _ hpair hturns
    simp only [List.foldl_nil]
    exact ⟨hlen2, hlast, habove, hpair, hturns, fun S hS hmem => ⟨hmem, by simp⟩⟩
  | cons p suf' ih =>
    intro st hlen2 hlast habove habove2 horder hpairsuf hpair hturns
    simp only [List.foldl_cons]
    have hne : st ≠ [] := by
      intro h
      rw [h] at hlen2
      simp at hlen2
    have hpA : Above s p := habove2 p (by simp)
    obtain ⟨st', heq, hsuf, hne', hturns', hcont⟩ :=
      hullSweep_spec s p hpA st hne hlast habove
        (fun x hx => horder x hx p (by simp)) hpair hturns
    rw [heq]
    have hsub : ∀ x ∈ st', x ∈ st := fun x hx => hsuf.subset hx
    have hlastN : (p :: st').getLast? = some s := by
      have h1 : st'.getLast? = some s := by
        rw [← getLast?_of_suffix hsuf hne', hlast]
      rcases st' with _ | ⟨y, t⟩
      · exact absurd rfl hne'
      · rw [List.getLast?_cons_cons]
        exact h1
    have habove' : ∀ x ∈ p :: st', Above s x := by
      intro x hx
      rcases List.mem_cons.mp hx with rfl | hx
      · exact hpA
      · exact habove x (hsub x hx)
    have habove2' : ∀ x ∈ suf', Above s x :=
      fun x hx => habove2 x (List.mem_cons_of_mem p hx)
    have horder' : ∀ x ∈ p :: st', ∀ q ∈ suf', hullLe s x q = true := by
      intro x hx q hq
      rcases List.mem_cons.mp hx with rfl | hx
      · exact List.rel_of_pairwise_cons hpairsuf hq
      · exact horder x (hsub x hx) q (List.mem_cons_of_mem p hq)
    have hpairN : (p :: st').Pairwise (fun a b => hullLe s b a = true) := by
      refine List.Pairwise.cons ?_ (hpair.sublist hsuf.sublist)
      intro x hx
      exact horder x (hsub x hx) p (by simp)
    have hlenN : 2 ≤ (p :: st').length := by
      have := List.length_pos.mpr hne'
      simp only [List.length_cons]
      omega
    obtain ⟨hne2, hlast2, habove3, hpair2, hturns2, hcont2⟩ :=
      ih (p :: st') hlenN hlastN habove' habove2' horder' hpairsuf.of_cons hpairN hturns'
    refine ⟨hne2, hlast2, habove3, hpair2, hturns2, ?_⟩
    intro S hS hmem
    obtain ⟨hmemN, hmemsuf'⟩ := hcont2 S hS hmem
    refine ⟨fun q hq => hcont S hS hmemN q hq, ?_⟩
    intro q hq
    rcases List.mem_cons.mp hq with rfl | hq
    · exact hmemN q (List.mem_cons_self _ _)
    · exact hmemsuf' q hq

/-! ## C9 development, part 5: the sorted list and the assembled hull -/

/-- The sorted copy of the points (source lines 492–499). -/
def sortedPts (points : List Pt) : List Pt :=
  points.insertionSort fun a b => hullLe (startPt points) a b = true

theorem sortedPts_perm (points : List Pt) : List.Perm (sortedPts points) points :=
  List.perm_insertionSort _ _

theorem sortedPts_sorted (points : List Pt) :
    (sortedPts points).Sorted fun a b => hullLe (startPt points) a b = true := by
  haveI : IsTotal Pt fun a b => hullLe (startPt points) a b = true :=
    ⟨fun a b => hullLe_total (startPt points) a b⟩
  haveI : IsTrans Pt fun a b => hullLe (startPt points) a b = true :=
    ⟨fun a b c => hullLe_trans (startPt points) a b c⟩
  exact List.sorted_insertionSort _ _

theorem hullLe_refl (s x : Pt) : hullLe s x x = true := by
  rw [hullLe_eq]
  have hnlt : ¬ angleLt (relVec s x) (relVec s x) = true := by
    intro hh
    rw [angleLt_iff] at hh
    rcases hh with hl | ⟨_, _, hx⟩
    · omega
    · have : vcross (relVec s x) (relVec s x) = 0 := by unfold vcross; ring
      rw [this] at hx
      exact lt_irrefl 0 hx
  rw [if_neg hnlt, if_neg hnlt]
  simp

/-- Any point that sorts no later than the start point is the start point. -/
theorem hullLe_to_start (s h : Pt) (hA : Above s h) (hle : hullLe s h s = true) : h = s := by
  have hss : atan2Class (relVec s s).y (relVec s s).x = 1 := by
    simp [relVec, atan2Class]
  rw [hullLe_eq] at hle
  rcases above_class s h hA with ⟨hc1, hy, hx⟩ | ⟨hc2, hy⟩
  · -- both on the degenerate ray: distance 0 forces equality
    have hnlt1 : ¬ angleLt (relVec s h) (relVec s s) = true := by
      intro hh
      rw [angleLt_iff] at hh
      rcases hh with hl | ⟨_, hcl, _⟩ <;> omega
    have hnlt2 : ¬ angleLt (relVec s s) (relVec s h) = true := by
      intro hh
      rw [angleLt_iff] at hh
      rcases hh with hl | ⟨_, hcl, _⟩ <;> omega
    rw [if_neg hnlt1, if_neg hnlt2] at hle
    simp only [decide_eq_true_eq] at hle
    unfold sqDist at hle
    have hchx : h.x = s.x := by nlinarith [sq_nonneg (h.x - s.x), sq_nonneg (h.y - s.y)]
    rcases h with ⟨hx', hy'⟩
    rcases s with ⟨sx', sy'⟩
    simp only [Pt.mk.injEq]
    simp only at hy hchx
    exact ⟨hchx, hy⟩
  · -- h strictly above s: it cannot sort before s
    exfalso
    have hlt : angleLt (relVec s s) (relVec s h) = true := by
      rw [angleLt_iff]
      exact Or.inl (by omega)
    have hnlt : ¬ angleLt (relVec s h) (relVec s s) = true := by
      intro hh
      rw [angleLt_iff] at hh
      rcases hh with hl | ⟨he, _, _⟩ <;> omega
    rw [if_neg hnlt, if_pos hlt] at hle
    exact absurd hle (by simp)

theorem sortedPts_head (points : List Pt) (hne : points ≠ []) :
    (sortedPts points).getD 0 ptD = startPt points := by
  have hperm := sortedPts_perm points
  have hsorted := sortedPts_sorted points
  rcases hx : sortedPts points with _ | ⟨h0, t⟩
  · exfalso
    have hl := hperm.length_eq
    rw [hx] at hl
    simp only [List.length_nil] at hl
    exact hne (List.length_eq_zero.mp hl.symm)
  · rw [hx] at hperm hsorted
    have hmem_s : startPt points ∈ h0 :: t := hperm.mem_iff.mpr (startPt_mem points hne)
    have hA : Above (startPt points) h0 :=
      startPt_min points h0 (hperm.mem_iff.mp (List.mem_cons_self h0 t))
    simp only [List.getD_cons_zero]
    rcases List.mem_cons.mp hmem_s with heq | hmem_t
    · exact heq.symm
    · exact hullLe_to_start (startPt points) h0 hA
        (List.rel_of_sorted_cons hsorted (startPt points) hmem_t)

theorem getD_eq_getElem (l : List Pt) (i : ℕ) (h : i < l.length) :
    l.getD i ptD = l[i] := by
  rw [List.getD_eq_getElem?_getD, List.getElem?_eq_getElem h]
  rfl

theorem getD_reverse (l : List Pt) (i : ℕ) (hi : i < l.length) :
    l.reverse.getD i ptD = l.getD (l.length - 1 - i) ptD := by
  rw [getD_eq_getElem l.reverse i (by simpa using hi),
      getD_eq_getElem l (l.length - 1 - i) (by omega)]
  exact List.getElem_reverse (by simpa using hi)

theorem stackTurns_getD : ∀ (l : List Pt), stackTurns l →
    ∀ i, i + 2 < l.length →
      0 < crossProduct (l.getD (i+2) ptD) (l.getD (i+1) ptD) (l.getD i ptD)
  | [], _, i, hi => by simp at hi
  | [c], _, i, hi => by simp at hi
  | [c, b], _, i, hi => by simp at hi
  | c :: b :: a :: rest, h, 0, _ => by
      simp only [List.getD_cons_zero, List.getD_cons_succ]
      exact h.1
  | c :: b :: a :: rest, h, i+1, hi => by
      simp only [List.getD_cons_succ]
      exact stackTurns_getD (b :: a :: rest) h.2 i (by simpa using hi)

theorem crossProduct_cyclic (a b c : Pt) : crossProduct a b c = crossProduct c a b := by
  unfold crossProduct; ring

/-- All cyclic consecutive vertex triples of the closed polygon `l` turn left
or go straight: the discrete statement that the polygon is convex (traversed
counterclockwise). -/
def convexCycle (l : List Pt) : Prop :=
  (∀ i, i + 2 < l.length →
    0 ≤ crossProduct (l.getD i ptD) (l.getD (i+1) ptD) (l.getD (i+2) ptD)) ∧
  0 ≤ crossProduct (l.getD (l.length - 2) ptD) (l.getD (l.length - 1) ptD) (l.getD 0 ptD) ∧
  0 ≤ crossProduct (l.getD (l.length - 1) ptD) (l.getD 0 ptD) (l.getD 1 ptD)

theorem convexHull_eq (points : List Pt) (h3 : ¬ points.length < 3) :
    convexHull points =
      (((sortedPts points).drop 2).foldl hullSweep
        [(sortedPts points).getD 1 ptD, (sortedPts points).getD 0 ptD]).reverse := by
  rw [convexHull, if_neg h3]
  rfl

/-- The assembled hull facts: the output polygon cycle is convex, and every
input point lies in every convex set containing the output vertices. -/
theorem convexHull_master (points : List Pt) (h3 : 3 ≤ points.length) :
    convexCycle (convexHull points) ∧
    ∀ S : Set (ℚ × ℚ), Convex ℚ S →
      (∀ x ∈ convexHull points, toVec x ∈ S) →
      ∀ p ∈ points, toVec p ∈ S := by
  have hne : points ≠ [] := by
    intro h
    rw [h] at h3
    simp at h3
  have hperm := sortedPts_perm points
  have hlen : (sortedPts points).length = points.length := hperm.length_eq
  have hsorted0 := sortedPts_sorted points
  have hhead := sortedPts_head points hne
  obtain ⟨x0, x1, rest, hsp⟩ : ∃ x0 x1 rest, sortedPts points = x0 :: x1 :: rest := by
    rcases hx : sortedPts points with _ | ⟨a, _ | ⟨b, t⟩⟩
    · rw [hx] at hlen
      simp only [List.length_nil] at hlen
      omega
    · rw [hx] at hlen
      simp only [List.length_cons, List.length_nil] at hlen
      omega
    · exact ⟨a, b, t, rfl⟩
  have hx0 : x0 = startPt points := by
    rw [hsp] at hhead
    simpa using hhead
  have hmemP : ∀ x ∈ sortedPts points, x ∈ points := fun x hx => hperm.mem_iff.mp hx
  have habove : ∀ x ∈ sortedPts points, Above (startPt points) x :=
    fun x hx => startPt_min points x (hmemP x hx)
  rw [hsp] at hsorted0 habove
  have hx1A : Above (startPt points) x1 := habove x1 (by simp)
  have hx0A : Above (startPt points) x0 := habove x0 (by simp)
  have hx01 : hullLe (startPt points) x0 x1 = true :=
    List.rel_of_sorted_cons hsorted0 x1 (by simp)
  have hrestA : ∀ x ∈ rest, Above (startPt points) x :=
    fun x hx => habove x (by simp [hx])
  have horder0 : ∀ x ∈ [x1, x0], ∀ q ∈ rest, hullLe (startPt points) x q = true := by
    intro x hx q hq
    rcases List.mem_cons.mp hx with rfl | hx
    · exact List.rel_of_sorted_cons hsorted0.of_cons q hq
    · rcases List.mem_cons.mp hx with rfl | hx
      · exact List.rel_of_sorted_cons hsorted0 q (List.mem_cons_of_mem x1 hq)
      · simp at hx
  have hpairsuf : rest.Pairwise (fun a b => hullLe (startPt points) a b = true) :=
    hsorted0.of_cons.of_cons
  have hpairst : ([x1, x0]).Pairwise (fun a b => hullLe (startPt points) b a = true) := by
    refine List.Pairwise.cons ?_ (List.pairwise_singleton _ _)
    intro y hy
    rcases List.mem_cons.mp hy with rfl | hy
    · exact hx01
    · simp at hy
  obtain ⟨hFlen, hFlast, hFabove, hFpair, hFturns, hFcont⟩ :=
    sweep_foldl_spec (startPt points) rest [x1, x0] (by simp)
      (by rw [List.getLast?_cons_cons]; simp [hx0])
      (fun x hx => by
        rcases List.mem_cons.mp hx with rfl | hx
        · exact hx1A
        · rcases List.mem_cons.mp hx with rfl | hx
          · exact hx0A
          · simp at hx)
      hrestA horder0 hpairsuf hpairst trivial
  have hHdef : convexHull points = (rest.foldl hullSweep [x1, x0]).reverse := by
    rw [convexHull_eq points (by omega), hsp]
    simp
  set F := rest.foldl hullSweep [x1, x0] with hFdef
  have hs_last : F.getD (F.length - 1) ptD = startPt points := by
    have h1 := hFlast
    rw [List.getLast?_eq_getElem?, List.getElem?_eq_getElem (by omega)] at h1
    rw [getD_eq_getElem F (F.length - 1) (by omega)]
    exact Option.some.inj h1
  constructor
  · rw [hHdef]
    refine ⟨?_, ?_, ?_⟩
    · -- interior turns are strictly left
      intro i hi
      rw [List.length_reverse] at hi
      rw [getD_reverse F i (by omega), getD_reverse F (i+1) (by omega),
          getD_reverse F (i+2) (by omega)]
      have e1 : F.length - 1 - i = (F.length - 3 - i) + 2 := by omega
      have e2 : F.length - 1 - (i+1) = (F.length - 3 - i) + 1 := by omega
      have e3 : F.length - 1 - (i+2) = F.length - 3 - i := by omega
      rw [e1, e2, e3]
      exact le_of_lt (stackTurns_getD F hFturns (F.length - 3 - i) (by omega))
    · -- the turn at the last vertex, closing back to the start point
      rw [List.length_reverse]
      rw [getD_reverse F (F.length - 2) (by omega), getD_reverse F (F.length - 1) (by omega),
          getD_reverse F 0 (by omega)]
      have e1 : F.length - 1 - (F.length - 2) = 1 := by omega
      have e2 : F.length - 1 - (F.length - 1) = 0 := by omega
      have e3 : F.length - 1 - 0 = F.length - 1 := by omega
      rw [e1, e2, e3, hs_last, crossProduct_cyclic]
      have hpair01 : hullLe (startPt points) (F.getD 1 ptD) (F.getD 0 ptD) = true := by
        rw [getD_eq_getElem F 1 (by omega), getD_eq_getElem F 0 (by omega)]
        exact List.pairwise_iff_getElem.mp hFpair 0 1 (by omega) (by omega) (by omega)
      exact cross_nonneg_of_hullLe (startPt points) _ _
        (hFabove _ (getD_mem F 1 ptD (by omega)))
        (hFabove _ (getD_mem F 0 ptD (by omega))) hpair01
    · -- the turn at the start point
      rw [List.length_reverse]
      rw [getD_reverse F (F.length - 1) (by omega), getD_reverse F 0 (by omega),
          getD_reverse F 1 (by omega)]
      have e2 : F.length - 1 - (F.length - 1) = 0 := by omega
      have e3 : F.length - 1 - 0 = F.length - 1 := by omega
      have e4 : F.length - 1 - 1 = F.length - 2 := by omega
      rw [e2, e3, e4, hs_last]
      rw [show crossProduct (F.getD 0 ptD) (startPt points) (F.getD (F.length - 2) ptD) =
        crossProduct (startPt points) (F.getD (F.length - 2) ptD) (F.getD 0 ptD) from
        (crossProduct_cyclic _ _ _).symm]
      have hpair2 : hullLe (startPt points) (F.getD (F.length - 2) ptD)
          (F.getD 0 ptD) = true := by
        rcases Nat.lt_or_ge 2 F.length with hn3 | hn2'
        · rw [getD_eq_getElem F (F.length - 2) (by omega), getD_eq_getElem F 0 (by omega)]
          exact List.pairwise_iff_getElem.mp hFpair 0 (F.length - 2)
            (by omega) (by omega) (by omega)
        · have hn2 : F.length - 2 = 0 := by omega
          rw [hn2]
          exact hullLe_refl _ _
      exact cross_nonneg_of_hullLe (startPt points) _ _
        (hFabove _ (getD_mem F (F.length - 2) ptD (by omega)))
        (hFabove _ (getD_mem F 0 ptD (by omega))) hpair2
  · intro S hS hmem
    have hmemF : ∀ x ∈ F, toVec x ∈ S := by
      intro x hx
      apply hmem
      rw [hHdef, List.mem_reverse]
      exact hx
    obtain ⟨hst, hsuf⟩ := hFcont S hS hmemF
    intro p hp
    have hp' : p ∈ sortedPts points := hperm.mem_iff.mpr hp
    rw [hsp] at hp'
    rcases List.mem_cons.mp hp' with rfl | hp'
    · exact hst p (by simp)
    · rcases List.mem_cons.mp hp' with rfl | hp'
      · exact hst p (by simp)
      · exact hsuf p hp'

end ShapeDet

/-- C9: for every point set of size at least 3, the polygon returned by
`convexHull` is convex — every cyclic consecutive vertex triple of the output,
traversed counterclockwise, turns left or goes straight — and every input
point lies inside it or on its boundary, i.e. in the convex hull of the
output's vertex set. -/
theorem convexHull_correct (points : List ShapeDet.Pt) (h3 : 3 ≤ points.length) :
    ShapeDet.convexCycle (ShapeDet.convexHull points) ∧
    ∀ p ∈ points, ShapeDet.toVec p ∈
      convexHull ℚ (ShapeDet.toVec '' {q | q ∈ ShapeDet.convexHull points}) := by
  obtain ⟨hcyc, hcont⟩ := ShapeDet.convexHull_master points h3
  refine ⟨hcyc, ?_⟩
  intro p hp
  exact hcont (convexHull ℚ (ShapeDet.toVec '' {q | q ∈ ShapeDet.convexHull points}))
    (convex_convexHull ℚ _)
    (fun x hx => subset_convexHull ℚ _ ⟨x, hx, rfl⟩) p hp

/-- Witness for C9 at a concrete 4-point square. -/
theorem convexHull_correct_holds :
    3 ≤ ([⟨0,0⟩, ⟨2,0⟩, ⟨2,2⟩, ⟨0,2⟩] : List ShapeDet.Pt).length ∧
    (ShapeDet.convexCycle (ShapeDet.convexHull [⟨0,0⟩, ⟨2,0⟩, ⟨2,2⟩, ⟨0,2⟩]) ∧
      ∀ p ∈ ([⟨0,0⟩, ⟨2,0⟩, ⟨2,2⟩, ⟨0,2⟩] : List ShapeDet.Pt), ShapeDet.toVec p ∈
        convexHull ℚ (ShapeDet.toVec ''
          {q | q ∈ ShapeDet.convexHull [⟨0,0⟩, ⟨2,0⟩, ⟨2,2⟩, ⟨0,2⟩]})) :=
  ⟨by decide, convexHull_correct _ (by decide)⟩
